import Mathlib

/-!
Verification development for the herd fleet-execution engine.

This file gives a shallow embedding, in Lean 4, of the core of the herd
repository: the Go error chains used by its error classification
(internal/grouper isTimeout, internal/ssh isReconnectable), the connection
pool's retry logic (internal/ssh/pool.go Run), the fan-out executor
(internal/executor/executor.go), the output grouper with its LCS-based
unified diff (internal/grouper), the selector resolver
(internal/selector), and an operational model of the pool's single-flight
dial coordination (internal/ssh/pool.go getOrDial).  Theorems at the end
settle the stated properties of these components.
-/

namespace Herd

/-! ## Go error chains

Go errors are an open interface; values relevant to this repository are
the context sentinels, io sentinels, values implementing the net.Error
interface (with a Timeout attribute), the concrete type net.OpError
(which also implements net.Error and unwraps to an inner error), plain
message errors, and fmt.Errorf wrappers.  A chain of such values (linked
by Unwrap) is modelled as the inductive GoErr. -/

inductive GoErr where
  /-- the Go nil error, appearing only as the terminating Err field of a
  net.OpError or the inner error of another net.Error implementor -/
  | nilErr : GoErr
  /-- context.Canceled -/
  | canceled : GoErr
  /-- context.DeadlineExceeded -/
  | deadlineExceeded : GoErr
  /-- io.EOF -/
  | eof : GoErr
  /-- io.ErrUnexpectedEOF -/
  | unexpectedEOF : GoErr
  /-- a concrete net.OpError value: its Timeout() result, its rendered
  message, and the error its Unwrap method returns -/
  | opError (timeout : Bool) (msg : String) (inner : GoErr) : GoErr
  /-- any other value implementing the net.Error interface: its Timeout()
  result, its rendered message, and what it unwraps to (nilErr when the
  value has no Unwrap method) -/
  | netErr (timeout : Bool) (msg : String) (inner : GoErr) : GoErr
  /-- a plain error value with only a message -/
  | simple (msg : String) : GoErr
  /-- a wrapper produced by an fmt.Errorf with a trailing percent-w verb:
  its message prefix and the wrapped error -/
  | wrap (pre : String) (inner : GoErr) : GoErr
deriving DecidableEq, Repr

namespace GoErr

/-- The Unwrap step of a Go error chain (none when the chain ends). -/
def unwrap : GoErr → Option GoErr
  | opError _ _ nilErr => none
  | opError _ _ inner => some inner
  | netErr _ _ nilErr => none
  | netErr _ _ inner => some inner
  | wrap _ inner => some inner
  | _ => none

/-- errors.Is for sentinel targets: walk the chain comparing to the
target value. -/
def goIs (e target : GoErr) : Bool :=
  decide (e = target) ||
    match e with
    | opError _ _ inner => goIs inner target
    | netErr _ _ inner => goIs inner target
    | wrap _ inner => goIs inner target
    | _ => false

/-- errors.As with a net.Error target: the first value in the chain
implementing net.Error, returning its Timeout() attribute.
net.OpError and context.DeadlineExceeded both implement net.Error (the
latter with Timeout() = true). -/
def asNetError : GoErr → Option Bool
  | deadlineExceeded => some true
  | opError t _ _ => some t
  | netErr t _ _ => some t
  | wrap _ inner => asNetError inner
  | _ => none

/-- errors.As with a target of concrete type pointer-to-net.OpError: the
first value in the chain of that exact type, returning its Timeout()
attribute and message.  As errors.As does, the walk unwraps through
every chain link with an Unwrap method — fmt.Errorf wrappers and
net.Error implementors alike (a nilErr inner ends the chain, matching a
nil Unwrap result). -/
def asOpError : GoErr → Option (Bool × String)
  | opError t m _ => some (t, m)
  | netErr _ _ inner => asOpError inner
  | wrap _ inner => asOpError inner
  | _ => none

/-- The Error() message of a chain. -/
def errMsg : GoErr → String
  | nilErr => ""
  | canceled => "context canceled"
  | deadlineExceeded => "context deadline exceeded"
  | eof => "EOF"
  | unexpectedEOF => "unexpected EOF"
  | opError _ m _ => m
  | netErr _ m _ => m
  | simple m => m
  | wrap pre inner => pre ++ errMsg inner

/-- strings.Contains, on the character sequences of the two strings. -/
def containsSub (s sub : String) : Bool :=
  decide (sub.data <:+: s.data)

end GoErr

/-! ## Host results (internal/executor/result.go)

Go byte slices (Stdout, Stderr) are modelled as Lean strings; Go's
string(b) conversion is then the identity.  ExitCode is a Go int,
modelled as Int; Duration is nanoseconds, modelled as Nat. -/

structure HostResult where
  host : String
  stdout : String
  stderr : String
  exitCode : Int
  duration : Nat
  err : Option GoErr
deriving DecidableEq, Repr, Inhabited

/-! ## Timeout classification (internal/grouper, isTimeout) -/

/-- isTimeout from the grouper: errors.Is against
context.DeadlineExceeded, else errors.As against net.Error and that
value's Timeout(). -/
def isTimeout (e : GoErr) : Bool :=
  if e.goIs .deadlineExceeded then true
  else
    match e.asNetError with
    | some t => t
    | none => false

/-- The specification's wording for the timeout predicate: the error
equals the deadline-exceeded sentinel, or its wrap chain includes a
value implementing the network-error capability whose timeout attribute
is set.  (Spec-side definition, to be compared with isTimeout.) -/
def chainHasTimeoutNetError : GoErr → Bool
  | .deadlineExceeded => true
  | .opError t _ inner => t || chainHasTimeoutNetError inner
  | .netErr t _ inner => t || chainHasTimeoutNetError inner
  | .wrap _ inner => chainHasTimeoutNetError inner
  | _ => false

/-! ## Connection pool retry (internal/ssh/pool.go) -/

/-- isReconnectable from internal/ssh/pool.go: nil is not reconnectable;
cancellation and deadline-exceeded are never reconnectable; EOF-class
sentinels and a wrapped net.OpError are; otherwise the rendered message
is searched for the three stale-connection substrings. -/
def isReconnectable : Option GoErr → Bool
  | none => false
  | some e =>
    if e.goIs .canceled || e.goIs .deadlineExceeded then false
    else if e.goIs .eof || e.goIs .unexpectedEOF then true
    else if (e.asOpError).isSome then true
    else
      GoErr.containsSub e.errMsg "use of closed network connection" ||
        GoErr.containsSub e.errMsg "connection reset" ||
        GoErr.containsSub e.errMsg "broken pipe"

/-- The outcome of one p.exec call: stdout, stderr, exit code, error. -/
structure ExecOutcome where
  stdout : String
  stderr : String
  exitCode : Int
  err : Option GoErr
deriving DecidableEq, Repr, Inhabited

/-- Observable behaviour of one Pool.Run call: the outcome it returns,
how many p.exec calls it made, and whether it evicted the cached client
(forcing the second exec to dial afresh). -/
structure PoolRunTrace where
  result : ExecOutcome
  execCalls : Nat
  evicted : Bool
deriving DecidableEq, Repr

/-- Pool.Run from internal/ssh/pool.go, with the two possible p.exec
outcomes supplied as parameters (first call, and the call made after an
eviction).  The code runs exec once; if the error is reconnectable it
evicts the cached client and runs exec exactly once more, returning that
second outcome unconditionally. -/
def poolRun (first second : ExecOutcome) : PoolRunTrace :=
  if isReconnectable first.err then
    { result := second, execCalls := 2, evicted := true }
  else
    { result := first, execCalls := 1, evicted := false }

/-! ## Fan-out executor (internal/executor/executor.go) -/

/-- Executor configuration: concurrency bound and per-host timeout in
nanoseconds (Go time.Duration is an int64 nanosecond count). -/
structure ExecutorCfg where
  concurrency : Int
  timeout : Int
deriving DecidableEq, Repr

/-- The two Option constructors of internal/executor/executor.go. -/
inductive ExecOption where
  | withConcurrency (n : Int) : ExecOption
  | withTimeout (d : Int) : ExecOption
deriving DecidableEq, Repr

/-- Applying one Option: WithConcurrency and WithTimeout each ignore
non-positive values. -/
def applyOption (e : ExecutorCfg) : ExecOption → ExecutorCfg
  | .withConcurrency n => if n > 0 then { e with concurrency := n } else e
  | .withTimeout d => if d > 0 then { e with timeout := d } else e

/-- New from internal/executor/executor.go: defaults concurrency 20 and
timeout 30 s (in nanoseconds), then applies the options in order. -/
def executorNew (opts : List ExecOption) : ExecutorCfg :=
  opts.foldl applyOption { concurrency := 20, timeout := 30000000000 }

/-- The scheduling-dependent fate of the goroutine for one slot of
Execute: either the parent context fired while the task waited for a
semaphore permit (carrying ctx.Err()), or the runner ran, with the
per-host context's deadline observation and the measured duration. -/
inductive TaskFate where
  | canceledWhileWaiting (ctxErr : GoErr) : TaskFate
  | ran (deadlineFired : Bool) (dur : Nat) : TaskFate

/-- The body of the per-host goroutine in Execute (lines 57-103 of
internal/executor/executor.go), for the slot at index idx with host h.
On cancellation while waiting for a permit it stores a zero result with
the host and ctx.Err(); otherwise it invokes the runner, overwrites
Duration and Host, and records deadline-exceeded when the per-host
context timed out with no error set by the runner. -/
def runSlot (runner : String → String → HostResult) (fate : Nat → TaskFate)
    (command : String) (idx : Nat) (h : String) : HostResult :=
  match fate idx with
  | .canceledWhileWaiting e =>
      { host := h, stdout := "", stderr := "", exitCode := 0, duration := 0, err := some e }
  | .ran deadlineFired dur =>
      let r := runner h command
      let r := { r with duration := dur, host := h }
      if deadlineFired && r.err.isNone then { r with err := some .deadlineExceeded } else r

/-- Execute: one result slot per input host, each written only by its
own goroutine, so the vector is a positional map of the input labels.
The goroutine interleaving and runner behaviour are abstracted into the
fate oracle and the runner function. -/
def execute (runner : String → String → HostResult) (fate : Nat → TaskFate)
    (hosts : List String) (command : String) : List HostResult :=
  hosts.mapIdx (fun idx h => runSlot runner fate command idx h)

/-! ## Unified diff (internal/grouper, unifiedDiff / computeLCS / splitLines)

The diff body is modelled as a list of tagged lines; the emitted string
is the fixed header followed by each tagged line rendered with its
prefix character and a trailing newline, matching the builder writes of
unifiedDiff one for one. -/

/-- The three kinds of body line a unified diff emits. -/
inductive DiffTag where
  | del : DiffTag
  | ins : DiffTag
  | keep : DiffTag
deriving DecidableEq, Repr

/-- strings.Split with a one-character separator: the runs of
characters between occurrences of the separator (always at least one,
possibly empty, run). -/
def splitOnChar (sep : Char) : List Char → List (List Char)
  | [] => [[]]
  | c :: rest =>
    if c = sep then [] :: splitOnChar sep rest
    else
      match splitOnChar sep rest with
      | [] => [[c]]
      | g :: gs => (c :: g) :: gs

/-- splitLines: strings.Split on newline, dropping the trailing empty
element produced by a trailing newline; the empty string yields nil. -/
def splitLines (s : String) : List String :=
  if s = "" then []
  else
    let lines := (splitOnChar '\n' s.data).map (fun cs => String.mk cs)
    if lines.getLast? = some "" then lines.dropLast else lines

/-- The diff fallback threshold (maxDiffLines). -/
def maxDiffLines : Nat := 500

/-- The DP table of computeLCS: lcsTable a b i j is dp at row i,
column j; entries are defined by the recurrence the fill loop
implements, with the same tie-break (up taken when up is at least
left). -/
def lcsTable [DecidableEq α] [Inhabited α] (a b : List α) : Nat → Nat → Nat
  | 0, _ => 0
  | _ + 1, 0 => 0
  | i + 1, j + 1 =>
    if a.getD i default = b.getD j default then lcsTable a b i j + 1
    else if lcsTable a b i (j + 1) ≥ lcsTable a b (i + 1) j then lcsTable a b i (j + 1)
    else lcsTable a b (i + 1) j
termination_by i j => i + j

/-- The backtracking loop of computeLCS: starting at (i, j) it collects
matched elements in the order Go appends them (last element of the LCS
first). -/
def backtrackRev [DecidableEq α] [Inhabited α] (a b : List α) : Nat → Nat → List α
  | 0, _ => []
  | _ + 1, 0 => []
  | i + 1, j + 1 =>
    if a.getD i default = b.getD j default then
      a.getD i default :: backtrackRev a b i j
    else if lcsTable a b i (j + 1) ≥ lcsTable a b (i + 1) j then backtrackRev a b i (j + 1)
    else backtrackRev a b (i + 1) j
termination_by i j => i + j

/-- computeLCS: fill the table, backtrack from (m, n), reverse. -/
def computeLCS [DecidableEq α] [Inhabited α] (a b : List α) : List α :=
  (backtrackRev a b a.length b.length).reverse

/-- The LCS walk of unifiedDiff: for each common element, first flush
the a-lines before its next occurrence as deletions and the b-lines
before its next occurrence as insertions, then emit it as context;
after the LCS is exhausted, flush the remaining a-lines as deletions
and b-lines as insertions. -/
def walkDiff [DecidableEq α] : List α → List α → List α → List (DiffTag × α)
  | [], a, b => a.map (fun x => (DiffTag.del, x)) ++ b.map (fun x => (DiffTag.ins, x))
  | c :: lcs, a, b =>
    let pa := a.span (fun x => decide (x ≠ c))
    let pb := b.span (fun x => decide (x ≠ c))
    pa.1.map (fun x => (DiffTag.del, x)) ++ pb.1.map (fun x => (DiffTag.ins, x)) ++
      (DiffTag.keep, c) :: walkDiff lcs (pa.2.drop 1) (pb.2.drop 1)

/-- The tagged body lines of unifiedDiff for the given line lists: the
full-removal/full-addition fallback over the threshold, the LCS walk
otherwise. -/
def diffOps (aLines bLines : List String) : List (DiffTag × String) :=
  if aLines.length > maxDiffLines || bLines.length > maxDiffLines then
    aLines.map (fun x => (DiffTag.del, x)) ++ bLines.map (fun x => (DiffTag.ins, x))
  else
    walkDiff (computeLCS aLines bLines) aLines bLines

/-- One body line as unifiedDiff writes it: prefix character, the line,
a newline. -/
def renderOp : DiffTag × String → String
  | (DiffTag.del, l) => "-" ++ l ++ "\n"
  | (DiffTag.ins, l) => "+" ++ l ++ "\n"
  | (DiffTag.keep, l) => " " ++ l ++ "\n"

/-- unifiedDiff: the fixed header followed by the rendered body. -/
def unifiedDiff (a b : String) : String :=
  "--- norm\n+++ outlier\n" ++ String.join ((diffOps (splitLines a) (splitLines b)).map renderOp)

/-- Applying a unified-diff body to a line sequence: a deletion must
match and consumes the current line, a context line must match, is
copied and consumes it, an insertion emits its line; the input must be
exhausted exactly when the body is. -/
def applyPatch [DecidableEq α] : List (DiffTag × α) → List α → Option (List α)
  | [], [] => some []
  | [], _ :: _ => none
  | (DiffTag.ins, s) :: ops, xs => (applyPatch ops xs).map (fun r => s :: r)
  | (DiffTag.del, s) :: ops, x :: xs => if s = x then applyPatch ops xs else none
  | (DiffTag.del, _) :: _, [] => none
  | (DiffTag.keep, s) :: ops, x :: xs =>
    if s = x then (applyPatch ops xs).map (fun r => x :: r) else none
  | (DiffTag.keep, _) :: _, [] => none

/-! ## Output grouper (internal/grouper, Group) -/

/-- One output group. -/
structure OutputGroup where
  hosts : List String
  stdout : String
  stderr : String
  exitCode : Int
  isNorm : Bool
  diff : String
deriving DecidableEq, Repr, Inhabited

/-- The categorized results of a parallel command execution. -/
structure GroupedResults where
  groups : List OutputGroup
  failed : List HostResult
  timedOut : List HostResult
deriving DecidableEq, Repr, Inhabited

/-- The equivalence key Group hashes: stdout, a NUL separator, stderr, a
NUL separator, and the four big-endian bytes of the 32-bit exit code.
The 256-bit hash of this buffer is modelled as the buffer itself (the
hash is injective up to SHA-256 collisions). -/
def mkKey (stdout stderr : String) (exitCode : Int) : List Char :=
  let u := (exitCode % 4294967296).toNat
  stdout.data ++ [Char.ofNat 0] ++ stderr.data ++ [Char.ofNat 0] ++
    [Char.ofNat (u / 16777216 % 256), Char.ofNat (u / 65536 % 256),
      Char.ofNat (u / 256 % 256), Char.ofNat (u % 256)]

/-- The key of one completed host result. -/
def hashKey (r : HostResult) : List Char :=
  mkKey r.stdout r.stderr r.exitCode

/-- The error-separation pass of Group: timed-out results, failed
results, and completed results, each in input order. -/
def classify : List HostResult → List HostResult × List HostResult × List HostResult
  | [] => ([], [], [])
  | r :: rest =>
    let prev := classify rest
    match r.err with
    | some e =>
      if isTimeout e then (r :: prev.1, prev.2.1, prev.2.2)
      else (prev.1, r :: prev.2.1, prev.2.2)
    | none => (prev.1, prev.2.1, r :: prev.2.2)

/-- Accumulated data of one equivalence class (groupData): the payload
of the first member and the hosts in arrival order. -/
structure GroupData where
  hosts : List String
  stdout : String
  stderr : String
  exitCode : Int
deriving DecidableEq, Repr, Inhabited

/-- Adding one completed result to the keyed accumulator, which models
the groups map together with the hashOrder insertion-order list: a
result with a known key appends its host to that entry, a new key
appends a fresh entry at the end. -/
def insertEntry (acc : List (List Char × GroupData)) (key : List Char)
    (r : HostResult) : List (List Char × GroupData) :=
  match acc with
  | [] => [(key, { hosts := [r.host], stdout := r.stdout, stderr := r.stderr, exitCode := r.exitCode })]
  | (k, g) :: rest =>
    if k = key then (k, { g with hosts := g.hosts ++ [r.host] }) :: rest
    else (k, g) :: insertEntry rest key r

/-- The accumulator after all completed results. -/
def buildEntries (completed : List HostResult) : List (List Char × GroupData) :=
  completed.foldl (fun acc r => insertEntry acc (hashKey r) r) []

/-- The total host count collected in the keyed accumulator. -/
def entriesHostSum (acc : List (List Char × GroupData)) : Nat :=
  (acc.map (fun e => e.2.hosts.length)).sum

/-- The norm-election scan of Group: keep the incumbent unless a later
entry has a strictly larger host list. -/
def electNorm (cur : List Char × GroupData) :
    List (List Char × GroupData) → List Char × GroupData
  | [] => cur
  | e :: rest =>
    if e.2.hosts.length > cur.2.hosts.length then electNorm e rest
    else electNorm cur rest

/-- Inserting one label into an ascending list (helper of the model of
sort.Strings). -/
def insertSorted (x : String) : List String → List String
  | [] => [x]
  | y :: ys => if x ≤ y then x :: y :: ys else y :: insertSorted x ys

/-- A model of sort.Strings: ascending lexicographic sort of the host
labels (the members of one equivalence class are pairwise-distinct
labels, so which ascending sort the library uses is unobservable). -/
def sortStrings (hosts : List String) : List String :=
  hosts.foldr insertSorted []

/-- The output group the norm entry becomes: sorted hosts, the class
payload, the norm flag, no diff. -/
def normGroupOf (norm : List Char × GroupData) : OutputGroup :=
  { hosts := sortStrings norm.2.hosts, stdout := norm.2.stdout,
    stderr := norm.2.stderr, exitCode := norm.2.exitCode,
    isNorm := true, diff := "" }

/-- The output group an outlier entry becomes: sorted hosts, the class
payload, and the unified diff of its stdout against the norm's. -/
def outlierGroupOf (normStdout : String) (e : List Char × GroupData) : OutputGroup :=
  { hosts := sortStrings e.2.hosts, stdout := e.2.stdout, stderr := e.2.stderr,
    exitCode := e.2.exitCode, isNorm := false,
    diff := unifiedDiff normStdout e.2.stdout }

/-- Group from internal/grouper: separate errors into timed-out and
failed, accumulate completed results into equivalence classes keyed by
hash in first-appearance order, elect the largest class as the norm
(first appearance winning ties), and emit the norm first followed by
the remaining classes in first-appearance order, each with sorted hosts
and (for outliers) a unified diff against the norm's stdout. -/
def Group (results : List HostResult) : GroupedResults :=
  let t := (classify results).1
  let f := (classify results).2.1
  let c := (classify results).2.2
  let base : GroupedResults := { groups := [], failed := f, timedOut := t }
  match buildEntries c with
  | [] => base
  | e0 :: rest =>
    let norm := electNorm e0 rest
    let normStdout := norm.2.stdout
    let outliers := ((e0 :: rest).filter (fun e => decide (e.1 ≠ norm.1))).map
      (outlierGroupOf normStdout)
    { base with groups := normGroupOf norm :: outliers }

/-! ## Selector resolver (internal/selector) -/

namespace Selector

/-- Go's unicode.IsSpace on the characters strings.TrimSpace can meet
in selector lines (the ASCII whitespace set plus NEL and NBSP). -/
def goIsSpace (c : Char) : Bool :=
  c = ' ' || c = '\t' || c = '\n' || c = '\r' ||
    c = Char.ofNat 11 || c = Char.ofNat 12 || c = Char.ofNat 133 || c = Char.ofNat 160

/-- strings.TrimSpace. -/
def goTrim (s : String) : String :=
  String.mk (((s.data.dropWhile goIsSpace).reverse.dropWhile goIsSpace).reverse)

/-- strings.HasPrefix(s, at-sign): the first character is the
at-sign. -/
def hasAtSign (s : List Char) : Bool :=
  match s with
  | c :: _ => c = '@'
  | [] => false

/-- The index after a maximal run of characters satisfying p, starting
at i (the common shape of the index-advancing loops of ParseInput).
The fuel argument bounds the iteration count structurally; since every
iteration advances the index while it is below the length, a fuel of
the remaining distance to the end suffices exactly. -/
def skipCharsFromAux (s : List Char) (p : Char → Bool) : Nat → Nat → Nat
  | 0, i => i
  | fuel + 1, i =>
    if h : i < s.length then
      if p (s.get ⟨i, h⟩) then skipCharsFromAux s p fuel (i + 1) else i
    else i

/-- Skipping spaces: the loops of ParseInput test for the literal space
character only. -/
def skipSp (s : List Char) (i : Nat) : Nat :=
  skipCharsFromAux s (fun c => c = ' ') (s.length - i) i

/-- Advancing past a selector token: a maximal run of non-space,
non-comma characters. -/
def skipTok (s : List Char) (i : Nat) : Nat :=
  skipCharsFromAux s (fun c => decide (c ≠ ' ') && decide (c ≠ ',')) (s.length - i) i

theorem le_skipCharsFromAux (s : List Char) (p : Char → Bool) :
    ∀ (fuel i : Nat), i ≤ skipCharsFromAux s p fuel i := by
  intro fuel
  induction fuel with
  | zero => intro i; exact Nat.le_refl i
  | succ fuel ih =>
    intro i
    unfold skipCharsFromAux
    split
    · split
      · exact Nat.le_trans (Nat.le_succ i) (ih (i + 1))
      · exact Nat.le_refl i
    · exact Nat.le_refl i

theorem le_skipSp (s : List Char) (i : Nat) : i ≤ skipSp s i :=
  le_skipCharsFromAux ..

theorem le_skipTok (s : List Char) (i : Nat) : i ≤ skipTok s i :=
  le_skipCharsFromAux ..

/-- The token-consuming loop of ParseInput: starting from index i it
skips spaces, requires an at-sign, advances past the token, and when a
comma followed (after spaces) by another at-sign is found continues
just past the comma; it returns the index at which the selector part of
the line ends.  Each recursive call strictly increases the index, which
never exceeds the line length, so a fuel of length + 1 makes the fuel
bound unreachable. -/
def parseLoop (s : List Char) : Nat → Nat → Nat
  | 0, i => i
  | fuel + 1, i =>
    let i1 := skipSp s i
    if h1 : i1 < s.length then
      if s.get ⟨i1, h1⟩ = '@' then
        let i2 := skipTok s i1
        let j := skipSp s i2
        if h2 : j < s.length then
          if s.get ⟨j, h2⟩ = ',' then
            let k := skipSp s (j + 1)
            if h3 : k < s.length then
              if s.get ⟨k, h3⟩ = '@' then parseLoop s fuel (j + 1)
              else i2
            else i2
          else i2
        else i2
      else i1
    else i1

/-- ParseInput from internal/selector: trim the line; a line not
starting with an at-sign has an empty selector and the whole line as
command; otherwise the selector is the trimmed prefix consumed by the
token loop and the command is the trimmed rest. -/
def ParseInput (input : String) : String × String :=
  let t := goTrim input
  if !hasAtSign t.data then ("", t)
  else
    let s := t.data
    let i := parseLoop s (s.length + 1) 0
    let sel := goTrim (String.mk (s.take i))
    if i ≥ s.length then (sel, "")
    else (sel, goTrim (String.mk (s.drop i)))

/-- Selector state: the full host list and the grouping of the last
command, absent before any command has run. -/
structure State where
  allHosts : List String
  grouped : Option GroupedResults

/-- okHosts: the hosts of the norm group of the previous grouping; an
error when no grouping exists; the first group marked as norm wins; nil
when no group is marked. -/
def okHosts (state : State) : Except String (List String) :=
  match state.grouped with
  | none => Except.error "@ok: no previous command results"
  | some gr =>
    match gr.groups.find? (fun g => g.isNorm) with
    | some g => Except.ok g.hosts
    | none => Except.ok []

/-- differsHosts: the hosts of the non-norm groups, concatenated in
group order. -/
def differsHosts (state : State) : Except String (List String) :=
  match state.grouped with
  | none => Except.error "@differs: no previous command results"
  | some gr =>
    Except.ok (gr.groups.foldl (fun acc g => if g.isNorm then acc else acc ++ g.hosts) [])

/-- failedHosts: failed results, then hosts of groups with non-zero
exit code, then timed-out results. -/
def failedHosts (state : State) : Except String (List String) :=
  match state.grouped with
  | none => Except.error "@failed: no previous command results"
  | some gr =>
    Except.ok
      ((gr.groups.foldl (fun acc g => if g.exitCode ≠ 0 then acc ++ g.hosts else acc)
          (gr.failed.map (fun r => r.host))) ++ gr.timedOut.map (fun r => r.host))

/-- timeoutHosts: the hosts of the timed-out results. -/
def timeoutHosts (state : State) : Except String (List String) :=
  match state.grouped with
  | none => Except.error "@timeout: no previous command results"
  | some gr => Except.ok (gr.timedOut.map (fun r => r.host))

/-- A model of the external Go path.Match glob engine used by
matchHosts: a question mark matches one character, a star any sequence,
any other character itself.  (Character classes and the path-separator
restriction of the library are not modelled; no claim depends on
them.) -/
def globMatch : List Char → List Char → Bool
  | [], [] => true
  | [], _ :: _ => false
  | '*' :: p, s =>
    globMatch p s ||
      match s with
      | [] => false
      | _ :: s2 => globMatch ('*' :: p) s2
  | _ :: _, [] => false
  | '?' :: p, _ :: s => globMatch p s
  | c :: p, x :: s => decide (c = x) && globMatch p s
termination_by p s => (p.length, s.length)

/-- matchHosts: the hosts whose names match the glob pattern; an error
when none match.  (The bad-pattern pre-check of the source cannot fire
in the model, whose glob engine accepts every pattern.) -/
def matchHosts (pattern : String) (allHosts : List String) : Except String (List String) :=
  let matched := allHosts.filter (fun h => globMatch pattern.data h.data)
  if matched = [] then Except.error ("no hosts match @" ++ pattern)
  else Except.ok matched

/-- resolveSingle: dispatch one at-sign-prefixed selector to its bucket
function, or to the glob matcher. -/
def resolveSingle (sel : String) (state : State) : Except String (List String) :=
  if !hasAtSign sel.data then
    Except.error ("invalid selector " ++ sel ++ ": must start with @")
  else
    let name := String.mk (sel.data.drop 1)
    match name with
    | "all" => Except.ok state.allHosts
    | "ok" => okHosts state
    | "differs" => differsHosts state
    | "failed" => failedHosts state
    | "timeout" => timeoutHosts state
    | _ => matchHosts name state.allHosts

/-- The per-part loop of Resolve: trim each comma-separated part, skip
empty parts, resolve the rest, and append each resolved host not seen
before (the seen set is exactly membership in the accumulator). -/
def resolveParts (state : State) : List String → List String → Except String (List String)
  | [], acc => Except.ok acc
  | part :: rest, acc =>
    let p := goTrim part
    if p = "" then resolveParts state rest acc
    else
      match resolveSingle p state with
      | Except.error e => Except.error e
      | Except.ok hosts =>
        resolveParts state rest
          (hosts.foldl (fun acc2 h => if h ∈ acc2 then acc2 else acc2 ++ [h]) acc)

/-- Resolve from internal/selector: the empty selector and the at-all
selector yield the full host list; otherwise the comma-separated parts
are resolved in order with first-occurrence deduplication. -/
def Resolve (sel : String) (state : State) : Except String (List String) :=
  if sel = "" || sel = "@all" then Except.ok state.allHosts
  else resolveParts state ((splitOnChar ',' sel.data).map (fun cs => String.mk cs)) []

end Selector

/-! ## Single-flight dial coordination (internal/ssh/pool.go, getOrDial)

An operational model of getOrDial for one label and N concurrent
callers, all invoked at time zero (so every pair of call windows
overlaps).  Each mutex-guarded region of the Go code is one atomic
step; the dial itself and the channel receive are separate steps, so
steps of other callers can interleave with them, exactly as the mutex
is released around them in the source.  A schedule (the list of thread
ids to step) ranges over all interleavings. -/

/-- The outcome a caller of getOrDial receives: a client produced by
the k-th transport open, or the error of the k-th transport open. -/
inductive SfOutcome where
  | ok (client : Nat) : SfOutcome
  | fail (dialIdx : Nat) : SfOutcome
deriving DecidableEq, Repr

/-- The control point of one caller: freshly invoked (before its first
lock acquisition); waiting on the in-flight ticket it observed; holding
the single-flight slot, about to dial; holding the dial's outcome,
about to publish it; returned. -/
inductive SfPc where
  | invoked : SfPc
  | waiting (ticket : Nat) : SfPc
  | dialing (ticket : Nat) : SfPc
  | publishing (ticket : Nat) (outcome : SfOutcome) : SfPc
  | done (outcome : SfOutcome) : SfPc
deriving DecidableEq, Repr

/-- The shared state of the pool for one label, plus every caller's
control point.  dials counts transport open invocations. -/
structure SfState where
  cache : Option Nat
  inflight : Option Nat
  published : List (Nat × SfOutcome)
  nextTicket : Nat
  dials : Nat
  threads : List SfPc
deriving DecidableEq, Repr

/-- One step of the caller tid, given the dial script (whether the k-th
transport open succeeds; a successful k-th open yields client k).
invoked: the first locked region — cache fast path, else join the
in-flight ticket, else claim the slot.  waiting: blocked until the
ticket is published, then the outcome is taken (and left for other
waiters).  dialing: the transport open.  publishing: the second locked
region — drop the in-flight entry, cache a successful client — followed
by the channel send.  A thread that is done, out of range, or blocked
leaves the state unchanged. -/
def sfStep (sc : Nat → Bool) (st : SfState) (tid : Nat) : SfState :=
  match st.threads[tid]? with
  | none => st
  | some pc =>
    match pc with
    | SfPc.invoked =>
      match st.cache with
      | some c => { st with threads := st.threads.set tid (SfPc.done (SfOutcome.ok c)) }
      | none =>
        match st.inflight with
        | some t => { st with threads := st.threads.set tid (SfPc.waiting t) }
        | none =>
          { st with inflight := some st.nextTicket, nextTicket := st.nextTicket + 1,
                    threads := st.threads.set tid (SfPc.dialing st.nextTicket) }
    | SfPc.waiting t =>
      match st.published.lookup t with
      | some out => { st with threads := st.threads.set tid (SfPc.done out) }
      | none => st
    | SfPc.dialing t =>
      let out := if sc st.dials then SfOutcome.ok st.dials else SfOutcome.fail st.dials
      { st with dials := st.dials + 1, threads := st.threads.set tid (SfPc.publishing t out) }
    | SfPc.publishing t out =>
      { st with inflight := none,
                cache := (match out with | SfOutcome.ok c => some c | SfOutcome.fail _ => st.cache),
                published := (t, out) :: st.published,
                threads := st.threads.set tid (SfPc.done out) }
    | SfPc.done _ => st

/-- N callers, all invoked at time zero, before any step runs. -/
def sfInit (n : Nat) : SfState :=
  { cache := none, inflight := none, published := [], nextTicket := 0,
    dials := 0, threads := List.replicate n SfPc.invoked }

/-- Running a schedule from the initial state. -/
def sfRun (sc : Nat → Bool) (n : Nat) (sched : List Nat) : SfState :=
  sched.foldl (sfStep sc) (sfInit n)

/-- Whether a caller currently holds the single-flight slot (it is
between claiming the slot and publishing its dial's outcome). -/
def sfActive : SfPc → Bool
  | SfPc.dialing _ => true
  | SfPc.publishing _ _ => true
  | _ => false

/-- Per-caller invariant of a run under an always-succeeding dial
script: a waiter waits on ticket 0; the slot holder holds ticket 0 and
sees the pre-dial (respectively pre-publish) shared state; a returned
caller received the first dial's client. -/
def SfThreadInv (st : SfState) : SfPc → Prop
  | SfPc.invoked => True
  | SfPc.waiting t => t = 0
  | SfPc.dialing t =>
    t = 0 ∧ st.inflight = some 0 ∧ st.dials = 0 ∧ st.published = [] ∧ st.cache = none
  | SfPc.publishing t o =>
    t = 0 ∧ st.inflight = some 0 ∧ o = SfOutcome.ok 0 ∧ st.dials = 1 ∧
      st.published = [] ∧ st.cache = none
  | SfPc.done o => o = SfOutcome.ok 0

/-- Global invariant of a run under an always-succeeding dial script:
at most one transport open ever starts, everything published or cached
is the first dial's client, an untouched pool state has seen no dial,
every caller satisfies its control-point invariant, at most one caller
holds the single-flight slot, and nobody holds it while no dial is in
flight. -/
def SfInv (st : SfState) : Prop :=
  st.dials ≤ 1 ∧
  (∀ t o, (t, o) ∈ st.published → t = 0 ∧ o = SfOutcome.ok 0 ∧ st.dials = 1) ∧
  (∀ c, st.cache = some c → c = 0 ∧ st.dials = 1) ∧
  (∀ t, st.inflight = some t → t = 0) ∧
  (st.cache = none ∧ st.inflight = none →
    st.dials = 0 ∧ st.published = [] ∧ st.nextTicket = 0) ∧
  (∀ (i : Nat) (pc : SfPc), st.threads[i]? = some pc → SfThreadInv st pc) ∧
  (∀ (i j : Nat) (p q : SfPc), st.threads[i]? = some p → st.threads[j]? = some q →
    sfActive p = true → sfActive q = true → i = j) ∧
  (st.inflight = none →
    ∀ (i : Nat) (p : SfPc), st.threads[i]? = some p → sfActive p = false)

/-! ## Specification-side vocabulary for the grouper theorems

These definitions restate, in the specification's words, the notions of
equivalence class, first-appearance key order, class size, and the
norm-election scan, to be compared against what Group computes. -/

/-- The completed (error-free) results of the input, in input
order. -/
def completedOf (results : List HostResult) : List HostResult :=
  (classify results).2.2

/-- The equivalence key determined by a group's payload. -/
def groupKey (g : OutputGroup) : List Char :=
  mkKey g.stdout g.stderr g.exitCode

/-- The distinct equivalence keys of the input's completed results in
first-appearance order. -/
def keysInOrder (results : List HostResult) : List (List Char) :=
  (completedOf results).foldl
    (fun ks r => if hashKey r ∈ ks then ks else ks ++ [hashKey r]) []

/-- The number of completed results in the equivalence class of key
k. -/
def classCount (results : List HostResult) (k : List Char) : Nat :=
  ((completedOf results).filter (fun r => decide (hashKey r = k))).length

/-- The specification's norm election: scan keys in insertion order,
keeping the key whose class grows strictly larger than the incumbent's
(first appearance wins ties). -/
def firstMaxKey (count : List Char → Nat) : List Char → List (List Char) → List Char
  | cur, [] => cur
  | cur, k :: ks =>
    if count k > count cur then firstMaxKey count k ks else firstMaxKey count cur ks

/-- The host count the keyed accumulator holds for key k (0 when the
key is absent). -/
def keyHostsLen (entries : List (List Char × GroupData)) (k : List Char) : Nat :=
  match entries.lookup k with
  | some g => g.hosts.length
  | none => 0

/-! ## Theorems -/

theorem runSlot_host (runner : String → String → HostResult) (fate : Nat → TaskFate)
    (command : String) (idx : Nat) (h : String) :
    (runSlot runner fate command idx h).host = h := by
  cases hf : fate idx with
  | canceledWhileWaiting e => simp [runSlot, hf]
  | ran deadlineFired dur =>
    simp only [runSlot, hf]
    split <;> rfl

theorem runSlot_canceled (runner : String → String → HostResult) (fate : Nat → TaskFate)
    (command : String) (idx : Nat) (h : String) (e : GoErr)
    (hf : fate idx = TaskFate.canceledWhileWaiting e) :
    (runSlot runner fate command idx h).err = some e := by
  simp only [runSlot, hf]

/-- C2: execute returns one result per input label, positionally: the
vector has the input's length and slot i carries label i as its host,
independent of task interleaving (the fate oracle); a slot whose task
is cancelled while waiting for a semaphore permit still carries its
label and the cancellation error. -/
theorem execute_positional (runner : String → String → HostResult) (fate : Nat → TaskFate)
    (hosts : List String) (command : String) :
    (execute runner fate hosts command).length = hosts.length ∧
    (∀ i : Nat, ((execute runner fate hosts command)[i]?).map HostResult.host = hosts[i]?) ∧
    (∀ (i : Nat) (r : HostResult) (e : GoErr),
      (execute runner fate hosts command)[i]? = some r →
      fate i = TaskFate.canceledWhileWaiting e → r.err = some e) := by
  refine ⟨?_, ?_, ?_⟩
  · exact List.length_mapIdx
  · intro i
    rw [execute, List.getElem?_mapIdx]
    cases hx : hosts[i]? with
    | none => rfl
    | some x => simp [runSlot_host]
  · intro i r e hr hf
    rw [execute, List.getElem?_mapIdx] at hr
    cases hx : hosts[i]? with
    | none => rw [hx] at hr; simp at hr
    | some x =>
      rw [hx] at hr
      simp at hr
      exact hr ▸ runSlot_canceled runner fate command i x e hf

/-- Witness for C2 at a concrete runner, fate oracle, and host list. -/
theorem execute_positional_witness :
    (execute (fun h _ => ⟨h, "out", "", 0, 0, none⟩)
        (fun i => if i = 0 then TaskFate.canceledWhileWaiting GoErr.canceled
          else TaskFate.ran false 5)
        ["a", "b"] "uptime").length = 2 ∧
    ((execute (fun h _ => ⟨h, "out", "", 0, 0, none⟩)
        (fun i => if i = 0 then TaskFate.canceledWhileWaiting GoErr.canceled
          else TaskFate.ran false 5)
        ["a", "b"] "uptime")[1]?).map HostResult.host = some "b" := by
  have h := execute_positional (fun h _ => ⟨h, "out", "", 0, 0, none⟩)
    (fun i => if i = 0 then TaskFate.canceledWhileWaiting GoErr.canceled
      else TaskFate.ran false 5)
    ["a", "b"] "uptime"
  refine ⟨h.1, ?_⟩
  rw [h.2.1 1]
  rfl

/-- C8: a non-positive per-host timeout supplied at construction is
rejected (the option leaves the configuration unchanged), and every
executor built by New has a positive per-host timeout. -/
theorem executor_timeout_positive :
    (∀ d : Int, d ≤ 0 → ∀ e : ExecutorCfg, applyOption e (ExecOption.withTimeout d) = e) ∧
    (∀ opts : List ExecOption, 0 < (executorNew opts).timeout) := by
  constructor
  · intro d hd e
    show (if d > 0 then { e with timeout := d } else e) = e
    rw [if_neg (by omega : ¬ d > 0)]
  · intro opts
    have general : ∀ (l : List ExecOption) (e : ExecutorCfg), 0 < e.timeout →
        0 < (l.foldl applyOption e).timeout := by
      intro l
      induction l with
      | nil => intro e he; simpa using he
      | cons o rest ih =>
        intro e he
        rw [List.foldl_cons]
        apply ih
        cases o with
        | withConcurrency n =>
          show 0 < (if n > 0 then { e with concurrency := n } else e).timeout
          split <;> simpa using he
        | withTimeout d =>
          show 0 < (if d > 0 then { e with timeout := d } else e).timeout
          split
          · next hd => simpa using hd
          · simpa using he
    exact general opts _ (by norm_num)

/-- Witness for C8 at timeout value -1. -/
theorem executor_timeout_positive_witness :
    applyOption { concurrency := 20, timeout := 30000000000 } (ExecOption.withTimeout (-1)) =
      { concurrency := 20, timeout := 30000000000 } ∧
    0 < (executorNew [ExecOption.withTimeout (-1)]).timeout :=
  ⟨executor_timeout_positive.1 (-1) (by norm_num) _,
    executor_timeout_positive.2 [ExecOption.withTimeout (-1)]⟩

/-- C4: a reconnectable first error makes Pool.Run evict the cached
client and run the command exactly once more, returning the second
outcome as-is; an error of cancellation or deadline-exceeded kind is
never reconnectable, so no eviction and no retry happen; and EOF,
unexpected EOF, a wrapped net.OpError, and the closed/reset/broken-pipe
message classes are in the reconnectable set. -/
theorem pool_retry_once (first second : ExecOutcome) :
    (isReconnectable first.err = true →
      poolRun first second = { result := second, execCalls := 2, evicted := true }) ∧
    (∀ e : GoErr, first.err = some e →
      (e.goIs GoErr.canceled || e.goIs GoErr.deadlineExceeded) = true →
      isReconnectable first.err = false ∧
      poolRun first second = { result := first, execCalls := 1, evicted := false }) ∧
    isReconnectable (some GoErr.eof) = true ∧
    isReconnectable (some GoErr.unexpectedEOF) = true ∧
    isReconnectable (some (GoErr.wrap "connect: "
      (GoErr.opError false "read tcp 10.0.0.5:22" GoErr.nilErr))) = true ∧
    isReconnectable (some (GoErr.netErr false "proxy failure"
      (GoErr.opError false "read tcp 10.0.0.5:22" GoErr.nilErr))) = true ∧
    isReconnectable (some (GoErr.simple "read tcp: connection reset by peer")) = true ∧
    isReconnectable (some (GoErr.simple "write: broken pipe")) = true ∧
    isReconnectable (some (GoErr.simple "use of closed network connection")) = true := by
  refine ⟨?_, ?_, by decide, by decide, by decide, by decide, by decide, by decide, by decide⟩
  · intro h
    unfold poolRun
    rw [if_pos h]
  · intro e he hc
    have hnr : isReconnectable first.err = false := by
      rw [he]
      simp only [isReconnectable]
      rw [if_pos hc]
    refine ⟨hnr, ?_⟩
    unfold poolRun
    rw [hnr]
    simp

/-- Witness for C4: an EOF first failure is retried and the second
outcome returned; a cancelled first call is not retried. -/
theorem pool_retry_once_witness :
    poolRun ⟨"", "", -1, some GoErr.eof⟩ ⟨"ok", "", 0, none⟩ =
      { result := ⟨"ok", "", 0, none⟩, execCalls := 2, evicted := true } ∧
    poolRun ⟨"", "", -1, some GoErr.canceled⟩ ⟨"ok", "", 0, none⟩ =
      { result := ⟨"", "", -1, some GoErr.canceled⟩, execCalls := 1, evicted := false } := by
  constructor
  · exact (pool_retry_once ⟨"", "", -1, some GoErr.eof⟩ ⟨"ok", "", 0, none⟩).1 (by decide)
  · exact ((pool_retry_once ⟨"", "", -1, some GoErr.canceled⟩ ⟨"ok", "", 0, none⟩).2.1
      GoErr.canceled rfl (by decide)).2

/-- C7: ParseInput trims the line and returns it whole as the command
when it does not start with an at-sign; on the specification's combined
example the selector is the two at-tokens and the command the rest; and
a comma not followed by another at-token ends the selector, the comma
becoming part of the command. -/
theorem parse_input_spec :
    (∀ input : String, Selector.hasAtSign (Selector.goTrim input).data = false →
      Selector.ParseInput input = ("", Selector.goTrim input)) ∧
    Selector.ParseInput "@differs, @failed systemctl restart nginx" =
      ("@differs, @failed", "systemctl restart nginx") ∧
    Selector.ParseInput "@web, restart" = ("@web", ", restart") := by
  refine ⟨?_, by decide, by decide⟩
  intro input h
  simp [Selector.ParseInput, h]

/-- Witness for C7 on a line with surrounding whitespace and no
selector. -/
theorem parse_input_spec_witness :
    Selector.ParseInput "  systemctl status  " = ("", "systemctl status") := by
  have h := parse_input_spec.1 "  systemctl status  " (by decide)
  rw [h]
  decide

/-- C10: with a grouping present whose group list is empty (for
example, every result of the previous command errored), resolving the
at-ok selector returns the empty host list without an error. -/
theorem resolve_ok_empty_groups (allHosts : List String) (gr : GroupedResults)
    (h : gr.groups = []) :
    Selector.okHosts ⟨allHosts, some gr⟩ = Except.ok [] ∧
    Selector.Resolve "@ok" ⟨allHosts, some gr⟩ = Except.ok [] := by
  have hok : Selector.okHosts ⟨allHosts, some gr⟩ = Except.ok [] := by
    show (match List.find? (fun g => g.isNorm) gr.groups with
          | some g => Except.ok g.hosts
          | none => Except.ok ([] : List String)) = Except.ok []
    rw [h]
    rfl
  refine ⟨hok, ?_⟩
  have h1 : Selector.Resolve "@ok" ⟨allHosts, some gr⟩ =
      Selector.resolveParts ⟨allHosts, some gr⟩ ["@ok"] [] := rfl
  rw [h1]
  unfold Selector.resolveParts
  have h2 : Selector.resolveSingle (Selector.goTrim "@ok") ⟨allHosts, some gr⟩ =
      Selector.okHosts ⟨allHosts, some gr⟩ := rfl
  simp only [h2, hok]
  rfl

/-- Witness for C10 at a concrete all-failed grouping. -/
theorem resolve_ok_empty_groups_witness :
    Selector.Resolve "@ok"
      ⟨["a", "b"], some ⟨[], [⟨"a", "", "", -1, 0, some (GoErr.simple "refused")⟩], []⟩⟩ =
      Except.ok [] :=
  (resolve_ok_empty_groups ["a", "b"]
    ⟨[], [⟨"a", "", "", -1, 0, some (GoErr.simple "refused")⟩], []⟩ rfl).2

theorem Group_timedOut (results : List HostResult) :
    (Group results).timedOut = (classify results).1 := by
  unfold Group
  dsimp only
  split <;> rfl

theorem Group_failed (results : List HostResult) :
    (Group results).failed = (classify results).2.1 := by
  unfold Group
  dsimp only
  split <;> rfl

theorem classify_eq_filters (results : List HostResult) :
    classify results =
      (results.filter (fun r => match r.err with | some e => isTimeout e | none => false),
       results.filter (fun r => match r.err with | some e => !isTimeout e | none => false),
       results.filter (fun r => r.err.isNone)) := by
  induction results with
  | nil => rfl
  | cons r rest ih =>
    simp only [classify, ih]
    cases he : r.err with
    | none => simp [he, List.filter_cons]
    | some e => cases ht : isTimeout e <;> simp [he, ht, List.filter_cons]

/-- C6 counterexample: a custom net.Error value with its timeout
attribute clear that wraps a net.Error with its timeout attribute set.
The wrap chain includes a network-capability value whose timeout
attribute is set, and the error is not the deadline sentinel, yet the
grouper classifies the result as failed, not timed out, because
errors.As stops at the outermost net.Error implementor. -/
theorem group_timeout_claim_counterexample :
    chainHasTimeoutNetError
        (GoErr.netErr false "proxy error" (GoErr.netErr true "i/o timeout" GoErr.nilErr)) = true ∧
    GoErr.goIs (GoErr.netErr false "proxy error" (GoErr.netErr true "i/o timeout" GoErr.nilErr))
        GoErr.deadlineExceeded = false ∧
    (Group [⟨"h1", "", "", -1, 1,
        some (GoErr.netErr false "proxy error"
          (GoErr.netErr true "i/o timeout" GoErr.nilErr))⟩]).timedOut = [] ∧
    (Group [⟨"h1", "", "", -1, 1,
        some (GoErr.netErr false "proxy error"
          (GoErr.netErr true "i/o timeout" GoErr.nilErr))⟩]).failed =
      [⟨"h1", "", "", -1, 1,
        some (GoErr.netErr false "proxy error"
          (GoErr.netErr true "i/o timeout" GoErr.nilErr))⟩] := by
  decide

/-- C6 amended: a result with a non-nil error is classified as timed
out exactly when the error is deadline-exceeded by errors.Is, or the
FIRST net.Error implementor found in its unwrap chain has its timeout
attribute set; every other errored result is classified as failed. -/
theorem group_timeout_classification (results : List HostResult) :
    (Group results).timedOut =
      results.filter (fun r => match r.err with | some e => isTimeout e | none => false) ∧
    (Group results).failed =
      results.filter (fun r => match r.err with | some e => !isTimeout e | none => false) ∧
    (∀ e : GoErr, isTimeout e =
      (e.goIs GoErr.deadlineExceeded || e.asNetError.getD false)) := by
  refine ⟨?_, ?_, ?_⟩
  · rw [Group_timedOut, classify_eq_filters]
  · rw [Group_failed, classify_eq_filters]
  · intro e
    unfold isTimeout
    cases hg : e.goIs GoErr.deadlineExceeded <;>
      cases hn : e.asNetError <;> simp [hg, hn]

theorem classify_length (results : List HostResult) :
    (classify results).1.length + (classify results).2.1.length +
      (classify results).2.2.length = results.length := by
  induction results with
  | nil => rfl
  | cons r rest ih =>
    simp only [classify]
    cases he : r.err with
    | none => simp only [List.length_cons]; omega
    | some e =>
      cases ht : isTimeout e <;> simp [ht] <;> omega

theorem length_insertSorted (x : String) (l : List String) :
    (insertSorted x l).length = l.length + 1 := by
  induction l with
  | nil => rfl
  | cons y ys ih =>
    unfold insertSorted
    split
    · rfl
    · simp [ih]

theorem length_sortStrings (l : List String) :
    (sortStrings l).length = l.length := by
  induction l with
  | nil => rfl
  | cons x xs ih =>
    show (insertSorted x (sortStrings xs)).length = xs.length + 1
    rw [length_insertSorted, ih]

theorem sortStrings_ne_nil (l : List String) (h : l ≠ []) : sortStrings l ≠ [] := by
  intro hc
  have := length_sortStrings l
  rw [hc] at this
  simp at this
  exact h (List.eq_nil_of_length_eq_zero this.symm)

theorem insertEntry_hostSum (acc : List (List Char × GroupData)) (key : List Char)
    (r : HostResult) : entriesHostSum (insertEntry acc key r) = entriesHostSum acc + 1 := by
  induction acc with
  | nil => rfl
  | cons e rest ih =>
    rcases e with ⟨k, g⟩
    unfold insertEntry
    split
    · simp [entriesHostSum]
      omega
    · simp only [entriesHostSum, List.map_cons, List.sum_cons] at ih ⊢
      omega

theorem insertEntry_ne_nil (acc : List (List Char × GroupData)) (key : List Char)
    (r : HostResult) : insertEntry acc key r ≠ [] := by
  cases acc with
  | nil => simp [insertEntry]
  | cons e rest =>
    rcases e with ⟨k, g⟩
    unfold insertEntry
    split <;> simp

theorem foldl_insertEntry_hostSum (c : List HostResult) :
    ∀ acc : List (List Char × GroupData),
      entriesHostSum (c.foldl (fun acc r => insertEntry acc (hashKey r) r) acc) =
        entriesHostSum acc + c.length := by
  induction c with
  | nil => intro acc; simp
  | cons r rest ih =>
    intro acc
    rw [List.foldl_cons, ih, insertEntry_hostSum]
    simp only [List.length_cons]
    omega

theorem buildEntries_hostSum (c : List HostResult) :
    entriesHostSum (buildEntries c) = c.length := by
  have := foldl_insertEntry_hostSum c []
  simpa [buildEntries, entriesHostSum] using this

theorem insertEntry_hosts_ne_nil (acc : List (List Char × GroupData)) (key : List Char)
    (r : HostResult) (h : ∀ e ∈ acc, e.2.hosts ≠ []) :
    ∀ e ∈ insertEntry acc key r, e.2.hosts ≠ [] := by
  induction acc with
  | nil =>
    intro e he
    simp only [insertEntry, List.mem_singleton] at he
    subst he
    simp
  | cons x rest ih =>
    rcases x with ⟨k, g⟩
    unfold insertEntry
    split
    · intro e he
      rcases List.mem_cons.mp he with h1 | h2
      · subst h1; simp
      · exact h e (List.mem_cons_of_mem _ h2)
    · intro e he
      rcases List.mem_cons.mp he with h1 | h2
      · subst h1; exact h (k, g) (List.mem_cons_self _ _)
      · exact ih (fun x hx => h x (List.mem_cons_of_mem _ hx)) e h2

theorem buildEntries_hosts_ne_nil (c : List HostResult) :
    ∀ e ∈ buildEntries c, e.2.hosts ≠ [] := by
  have general : ∀ (l : List HostResult) (acc : List (List Char × GroupData)),
      (∀ e ∈ acc, e.2.hosts ≠ []) →
      ∀ e ∈ l.foldl (fun acc r => insertEntry acc (hashKey r) r) acc, e.2.hosts ≠ [] := by
    intro l
    induction l with
    | nil => intro acc h; exact h
    | cons r rest ih =>
      intro acc h
      rw [List.foldl_cons]
      exact ih _ (insertEntry_hosts_ne_nil acc (hashKey r) r h)
  exact general c [] (by simp)

theorem insertEntry_keys (acc : List (List Char × GroupData)) (key : List Char)
    (r : HostResult) :
    (insertEntry acc key r).map Prod.fst =
      if key ∈ acc.map Prod.fst then acc.map Prod.fst else acc.map Prod.fst ++ [key] := by
  induction acc with
  | nil => simp [insertEntry]
  | cons x rest ih =>
    rcases x with ⟨k, g⟩
    unfold insertEntry
    split
    · next hk =>
      subst hk
      simp only [List.map_cons]
      rw [if_pos (List.mem_cons_self _ _)]
    · next hk =>
      simp only [List.map_cons, ih, List.mem_cons]
      by_cases hmem : key ∈ rest.map Prod.fst
      · simp [hmem, Ne.symm hk]
      · simp [hmem, Ne.symm hk]

theorem buildEntries_keys_nodup (c : List HostResult) :
    ((buildEntries c).map Prod.fst).Nodup := by
  have general : ∀ (l : List HostResult) (acc : List (List Char × GroupData)),
      (acc.map Prod.fst).Nodup →
      ((l.foldl (fun acc r => insertEntry acc (hashKey r) r) acc).map Prod.fst).Nodup := by
    intro l
    induction l with
    | nil => intro acc h; exact h
    | cons r rest ih =>
      intro acc h
      rw [List.foldl_cons]
      apply ih
      rw [insertEntry_keys]
      split
      · exact h
      · next hmem =>
        rw [List.nodup_append]
        refine ⟨h, List.nodup_singleton _, ?_⟩
        intro a ha hb
        rw [List.mem_singleton.mp hb] at ha
        exact hmem ha
  exact general c [] (by simp)

theorem electNorm_mem : ∀ (rest : List (List Char × GroupData)) (cur : List Char × GroupData),
    electNorm cur rest ∈ cur :: rest := by
  intro rest
  induction rest with
  | nil => intro cur; simp [electNorm]
  | cons e rs ih =>
    intro cur
    unfold electNorm
    split
    · rcases List.mem_cons.mp (ih e) with h1 | h2
      · rw [h1]; simp
      · exact List.mem_cons_of_mem _ (List.mem_cons_of_mem _ h2)
    · rcases List.mem_cons.mp (ih cur) with h1 | h2
      · rw [h1]; simp
      · exact List.mem_cons_of_mem _ (List.mem_cons_of_mem _ h2)

theorem electNorm_max : ∀ (rest : List (List Char × GroupData)) (cur : List Char × GroupData),
    ∀ x ∈ cur :: rest, x.2.hosts.length ≤ (electNorm cur rest).2.hosts.length := by
  intro rest
  induction rest with
  | nil =>
    intro cur x hx
    simp at hx
    subst hx
    exact Nat.le_refl _
  | cons e rs ih =>
    intro cur x hx
    unfold electNorm
    split
    · next hgt =>
      rcases List.mem_cons.mp hx with h1 | h2
      · subst h1
        exact Nat.le_trans (Nat.le_of_lt hgt) (ih e e (List.mem_cons_self _ _))
      · exact ih e x h2
    · next hle =>
      rcases List.mem_cons.mp hx with h1 | h2
      · subst h1
        exact ih x x (List.mem_cons_self _ _)
      · rcases List.mem_cons.mp h2 with h3 | h4
        · subst h3
          exact Nat.le_trans (Nat.le_of_not_lt hle) (ih cur cur (List.mem_cons_self _ _))
        · exact ih cur x (List.mem_cons_of_mem _ h4)

theorem filter_ne_key_hostSum :
    ∀ (entries : List (List Char × GroupData)) (norm : List Char × GroupData),
    (entries.map Prod.fst).Nodup → norm ∈ entries →
    norm.2.hosts.length +
      entriesHostSum (entries.filter (fun e => decide (e.1 ≠ norm.1))) =
      entriesHostSum entries := by
  intro entries
  induction entries with
  | nil => intro norm _ hmem; simp at hmem
  | cons x rest ih =>
    intro norm hnd hmem
    rw [List.map_cons, List.nodup_cons] at hnd
    rcases List.mem_cons.mp hmem with h1 | h2
    · subst h1
      have hrest : ∀ e ∈ rest, ¬(e.1 = norm.1) := by
        intro e he hc
        exact hnd.1 (by rw [← hc]; exact List.mem_map_of_mem _ he)
      have hfil : rest.filter (fun e => decide (e.1 ≠ norm.1)) = rest := by
        rw [List.filter_eq_self]
        intro e he
        simpa using hrest e he
      have hstep : (norm :: rest).filter (fun e => decide (e.1 ≠ norm.1)) = rest := by
        simp only [List.filter_cons]
        simp [hfil]
        intro a b hab
        exact hrest (a, b) hab
      rw [hstep]
      simp [entriesHostSum]
    · have hx : ¬(x.1 = norm.1) := by
        intro hc
        exact hnd.1 (by rw [hc]; exact List.mem_map_of_mem _ h2)
      have hrec := ih norm hnd.2 h2
      have hstep : (x :: rest).filter (fun e => decide (e.1 ≠ norm.1)) =
          x :: rest.filter (fun e => decide (e.1 ≠ norm.1)) := by
        simp only [List.filter_cons]
        simp [hx]
      rw [hstep]
      simp only [entriesHostSum, List.map_cons, List.sum_cons] at hrec ⊢
      omega

theorem foldl_insertEntry_ne_nil (l : List HostResult) :
    ∀ acc : List (List Char × GroupData), acc ≠ [] →
      l.foldl (fun acc r => insertEntry acc (hashKey r) r) acc ≠ [] := by
  induction l with
  | nil => intro acc ha; exact ha
  | cons x xs ih =>
    intro acc ha
    rw [List.foldl_cons]
    exact ih _ (insertEntry_ne_nil _ _ _)

theorem buildEntries_eq_nil (c : List HostResult) (h : buildEntries c = []) : c = [] := by
  cases c with
  | nil => rfl
  | cons r rest =>
    exfalso
    unfold buildEntries at h
    rw [List.foldl_cons] at h
    exact foldl_insertEntry_ne_nil rest _ (insertEntry_ne_nil _ _ _) h

/-- C3: every input result lands in exactly one bucket — the failed
list, the timed-out list, or the host list of exactly one group — so
the bucket sizes sum to the input length, and every emitted group has a
non-empty host list. -/
theorem grouper_partition (results : List HostResult) :
    (Group results).failed.length + (Group results).timedOut.length +
      (((Group results).groups.map (fun g => g.hosts.length)).sum) = results.length ∧
    ∀ g ∈ (Group results).groups, g.hosts ≠ [] := by
  have hf : (Group results).failed = (classify results).2.1 := Group_failed results
  have ht : (Group results).timedOut = (classify results).1 := Group_timedOut results
  have hlen := classify_length results
  rcases hbe : buildEntries (classify results).2.2 with _ | ⟨e0, rest⟩
  · have hg : (Group results).groups = [] := by
      unfold Group
      dsimp only
      rw [hbe]
    have hc : (classify results).2.2 = [] := buildEntries_eq_nil _ hbe
    rw [hf, ht, hg]
    rw [hc] at hlen
    simp at hlen ⊢
    omega
  · have hg : (Group results).groups =
        normGroupOf (electNorm e0 rest) ::
          ((e0 :: rest).filter (fun e => decide (e.1 ≠ (electNorm e0 rest).1))).map
            (outlierGroupOf (electNorm e0 rest).2.stdout) := by
      unfold Group
      dsimp only
      rw [hbe]
    have hnd : ((e0 :: rest).map Prod.fst).Nodup := by
      rw [← hbe]
      exact buildEntries_keys_nodup _
    have hmem : electNorm e0 rest ∈ e0 :: rest := electNorm_mem rest e0
    have hsum := filter_ne_key_hostSum (e0 :: rest) (electNorm e0 rest) hnd hmem
    have hes : entriesHostSum (e0 :: rest) = (classify results).2.2.length := by
      rw [← hbe]
      exact buildEntries_hostSum _
    constructor
    · rw [hf, ht, hg]
      rw [List.map_cons, List.sum_cons, List.map_map]
      have hcongr :
          ((e0 :: rest).filter (fun e => decide (e.1 ≠ (electNorm e0 rest).1))).map
              ((fun g : OutputGroup => g.hosts.length) ∘
                (outlierGroupOf (electNorm e0 rest).2.stdout)) =
            ((e0 :: rest).filter (fun e => decide (e.1 ≠ (electNorm e0 rest).1))).map
              (fun e => e.2.hosts.length) := by
        apply List.map_congr_left
        intro e _
        show (sortStrings e.2.hosts).length = e.2.hosts.length
        exact length_sortStrings _
      rw [hcongr]
      have hnorm_len : (normGroupOf (electNorm e0 rest)).hosts.length =
          (electNorm e0 rest).2.hosts.length := by
        show (sortStrings (electNorm e0 rest).2.hosts).length = _
        exact length_sortStrings _
      rw [hnorm_len]
      have : (electNorm e0 rest).2.hosts.length +
          entriesHostSum
            ((e0 :: rest).filter (fun e => decide (e.1 ≠ (electNorm e0 rest).1))) =
          (classify results).2.2.length := by rw [hsum, hes]
      unfold entriesHostSum at this
      omega
    · intro g hgm
      rw [hg] at hgm
      rcases List.mem_cons.mp hgm with h1 | h2
      · rw [h1]
        have : (electNorm e0 rest).2.hosts ≠ [] := by
          apply buildEntries_hosts_ne_nil (classify results).2.2
          rw [hbe]
          exact hmem
        show sortStrings (electNorm e0 rest).2.hosts ≠ []
        exact sortStrings_ne_nil _ this
      · rcases List.mem_map.mp h2 with ⟨e, hef, heq⟩
        have hee : e ∈ e0 :: rest := List.mem_of_mem_filter hef
        have : e.2.hosts ≠ [] := by
          apply buildEntries_hosts_ne_nil (classify results).2.2
          rw [hbe]
          exact hee
        rw [← heq]
        show sortStrings e.2.hosts ≠ []
        exact sortStrings_ne_nil _ this

/-- Witness for C3 at a two-result input with one completed result and
one failure. -/
theorem grouper_partition_witness :
    (Group [⟨"a", "x", "", 0, 1, none⟩,
        ⟨"f", "", "", -1, 1, some (GoErr.simple "boom")⟩]).failed.length +
      (Group [⟨"a", "x", "", 0, 1, none⟩,
        ⟨"f", "", "", -1, 1, some (GoErr.simple "boom")⟩]).timedOut.length +
      (((Group [⟨"a", "x", "", 0, 1, none⟩,
        ⟨"f", "", "", -1, 1, some (GoErr.simple "boom")⟩]).groups.map
          (fun g => g.hosts.length)).sum) = 2 ∧
    (⟨["a"], "x", "", 0, true, ""⟩ : OutputGroup).hosts ≠ [] := by
  constructor
  · exact (grouper_partition [⟨"a", "x", "", 0, 1, none⟩,
      ⟨"f", "", "", -1, 1, some (GoErr.simple "boom")⟩]).1
  · have hg : (Group [⟨"a", "x", "", 0, 1, none⟩,
        ⟨"f", "", "", -1, 1, some (GoErr.simple "boom")⟩]).groups =
        [⟨["a"], "x", "", 0, true, ""⟩] := by decide
    exact (grouper_partition [⟨"a", "x", "", 0, 1, none⟩,
      ⟨"f", "", "", -1, 1, some (GoErr.simple "boom")⟩]).2
      ⟨["a"], "x", "", 0, true, ""⟩ (by rw [hg]; exact List.mem_singleton_self _)

theorem completedOf_eq_filter (results : List HostResult) :
    completedOf results = results.filter (fun r => r.err.isNone) := by
  unfold completedOf
  rw [classify_eq_filters]

theorem foldl_insertEntry_keys (l : List HostResult) :
    ∀ acc : List (List Char × GroupData),
      (l.foldl (fun acc r => insertEntry acc (hashKey r) r) acc).map Prod.fst =
        l.foldl (fun ks r => if hashKey r ∈ ks then ks else ks ++ [hashKey r])
          (acc.map Prod.fst) := by
  induction l with
  | nil => intro acc; rfl
  | cons r rest ih =>
    intro acc
    rw [List.foldl_cons, List.foldl_cons, ih, insertEntry_keys]

theorem buildEntries_keys (c : List HostResult) :
    (buildEntries c).map Prod.fst =
      c.foldl (fun ks r => if hashKey r ∈ ks then ks else ks ++ [hashKey r]) [] := by
  exact foldl_insertEntry_keys c []

theorem insertEntry_payload (acc : List (List Char × GroupData)) (r : HostResult)
    (h : ∀ p ∈ acc, mkKey p.2.stdout p.2.stderr p.2.exitCode = p.1) :
    ∀ p ∈ insertEntry acc (hashKey r) r, mkKey p.2.stdout p.2.stderr p.2.exitCode = p.1 := by
  induction acc with
  | nil =>
    intro p hp
    simp only [insertEntry, List.mem_singleton] at hp
    subst hp
    rfl
  | cons x rest ih =>
    rcases x with ⟨k, g⟩
    unfold insertEntry
    split
    · next hk =>
      intro p hp
      rcases List.mem_cons.mp hp with h1 | h2
      · subst h1
        exact h (k, g) (List.mem_cons_self _ _)
      · exact h p (List.mem_cons_of_mem _ h2)
    · intro p hp
      rcases List.mem_cons.mp hp with h1 | h2
      · subst h1
        exact h (k, g) (List.mem_cons_self _ _)
      · exact ih (fun q hq => h q (List.mem_cons_of_mem _ hq)) p h2

theorem buildEntries_payload (c : List HostResult) :
    ∀ p ∈ buildEntries c, mkKey p.2.stdout p.2.stderr p.2.exitCode = p.1 := by
  have general : ∀ (l : List HostResult) (acc : List (List Char × GroupData)),
      (∀ p ∈ acc, mkKey p.2.stdout p.2.stderr p.2.exitCode = p.1) →
      ∀ p ∈ l.foldl (fun acc r => insertEntry acc (hashKey r) r) acc,
        mkKey p.2.stdout p.2.stderr p.2.exitCode = p.1 := by
    intro l
    induction l with
    | nil => intro acc h; exact h
    | cons r rest ih =>
      intro acc h
      rw [List.foldl_cons]
      exact ih _ (insertEntry_payload acc r h)
  exact general c [] (by simp)

theorem insertEntry_keyHostsLen (acc : List (List Char × GroupData)) (k0 : List Char)
    (r : HostResult) (k : List Char) :
    keyHostsLen (insertEntry acc k0 r) k =
      keyHostsLen acc k + (if k0 = k then 1 else 0) := by
  induction acc with
  | nil =>
    by_cases hk : k0 = k
    · subst hk
      simp [insertEntry, keyHostsLen, List.lookup]
    · simp [insertEntry, keyHostsLen, List.lookup, beq_false_of_ne (Ne.symm hk), hk]
  | cons x rest ih =>
    rcases x with ⟨k1, g1⟩
    unfold insertEntry
    split
    · next h1 =>
      subst h1
      by_cases hk : k1 = k
      · subst hk
        simp [keyHostsLen, List.lookup]
      · simp [keyHostsLen, List.lookup, beq_false_of_ne (Ne.symm hk), hk]
    · next h1 =>
      by_cases hk : k1 = k
      · subst hk
        have hne : k0 ≠ k1 := fun hc => h1 hc.symm
        simp [keyHostsLen, List.lookup, hne]
      · simp only [keyHostsLen, List.lookup, beq_false_of_ne (Ne.symm hk)]
        exact ih

theorem foldl_insertEntry_keyHostsLen (l : List HostResult) :
    ∀ (acc : List (List Char × GroupData)) (k : List Char),
      keyHostsLen (l.foldl (fun acc r => insertEntry acc (hashKey r) r) acc) k =
        keyHostsLen acc k + (l.filter (fun r => decide (hashKey r = k))).length := by
  induction l with
  | nil => intro acc k; simp
  | cons r rest ih =>
    intro acc k
    rw [List.foldl_cons, ih, insertEntry_keyHostsLen]
    rw [List.filter_cons]
    by_cases hk : hashKey r = k
    · simp [hk]
      omega
    · simp [hk]

theorem lookup_of_mem_nodup :
    ∀ (entries : List (List Char × GroupData)) (k : List Char) (g : GroupData),
      (entries.map Prod.fst).Nodup → (k, g) ∈ entries → entries.lookup k = some g := by
  intro entries
  induction entries with
  | nil => intro k g _ hm; simp at hm
  | cons x rest ih =>
    intro k g hnd hm
    rw [List.map_cons, List.nodup_cons] at hnd
    rcases List.mem_cons.mp hm with h1 | h2
    · rw [← h1]
      simp [List.lookup]
    · have hk : x.1 ≠ k := by
        intro hc
        apply hnd.1
        rw [hc]
        exact List.mem_map_of_mem Prod.fst h2
      rcases x with ⟨k1, g1⟩
      simp only [List.lookup, beq_false_of_ne (Ne.symm hk)]
      exact ih k g hnd.2 h2

theorem buildEntries_counts (c : List HostResult) :
    ∀ p ∈ buildEntries c,
      p.2.hosts.length = (c.filter (fun r => decide (hashKey r = p.1))).length := by
  intro p hp
  rcases p with ⟨k, g⟩
  have hlk : (buildEntries c).lookup k = some g :=
    lookup_of_mem_nodup (buildEntries c) k g (buildEntries_keys_nodup c) hp
  have h1 : keyHostsLen (buildEntries c) k = g.hosts.length := by
    simp [keyHostsLen, hlk]
  have h2 := foldl_insertEntry_keyHostsLen c [] k
  unfold buildEntries at h1
  rw [h2] at h1
  simp [keyHostsLen, List.lookup] at h1
  exact h1.symm

theorem electNorm_firstMax (count : List Char → Nat) :
    ∀ (rest : List (List Char × GroupData)) (cur : List Char × GroupData),
      (∀ x ∈ cur :: rest, x.2.hosts.length = count x.1) →
      (electNorm cur rest).1 = firstMaxKey count cur.1 (rest.map Prod.fst) := by
  intro rest
  induction rest with
  | nil => intro cur _; rfl
  | cons e rs ih =>
    intro cur h
    have hcur : cur.2.hosts.length = count cur.1 := h cur (List.mem_cons_self _ _)
    have he : e.2.hosts.length = count e.1 :=
      h e (List.mem_cons_of_mem _ (List.mem_cons_self _ _))
    unfold electNorm
    rw [List.map_cons]
    unfold firstMaxKey
    by_cases hgt : e.2.hosts.length > cur.2.hosts.length
    · rw [if_pos hgt, if_pos (by rw [← hcur, ← he]; exact hgt)]
      apply ih
      intro x hx
      rcases List.mem_cons.mp hx with h1 | h2
      · subst h1; exact he
      · exact h x (List.mem_cons_of_mem _ (List.mem_cons_of_mem _ h2))
    · rw [if_neg hgt, if_neg (by rw [← hcur, ← he]; exact hgt)]
      apply ih
      intro x hx
      rcases List.mem_cons.mp hx with h1 | h2
      · subst h1; exact hcur
      · exact h x (List.mem_cons_of_mem _ (List.mem_cons_of_mem _ h2))

/-- C1 counterexample: a non-empty input vector whose only result
carries an error yields a grouping with no groups at all, so there is
no first group to be the norm. -/
theorem norm_election_claim_counterexample :
    ([⟨"h", "", "", -1, 1, some (GoErr.simple "connection refused")⟩] : List HostResult) ≠ [] ∧
    (Group [⟨"h", "", "", -1, 1, some (GoErr.simple "connection refused")⟩]).groups = [] := by
  decide

/-- C1 amended: for every input vector containing at least one
non-errored result, the grouping's first group is the norm
(is_norm true, every later group no larger), every group's host count
is the size of its equivalence class, the norm's class is the one the
specification's election (strictly-larger beats the incumbent, first
appearance wins ties, scanning classes in first-appearance order)
selects, and the remaining groups follow in first-appearance order of
their class. -/
theorem norm_election (results : List HostResult)
    (h : ∃ r ∈ results, r.err = none) :
    ∃ g0 gs, (Group results).groups = g0 :: gs ∧
      g0.isNorm = true ∧
      (∀ g ∈ gs, g.isNorm = false) ∧
      (∀ g ∈ gs, g.hosts.length ≤ g0.hosts.length) ∧
      (∀ g ∈ g0 :: gs, g.hosts.length = classCount results (groupKey g)) ∧
      (∀ k0 ktail, keysInOrder results = k0 :: ktail →
        groupKey g0 = firstMaxKey (classCount results) k0 ktail) ∧
      gs.map groupKey = (keysInOrder results).erase (groupKey g0) := by
  have hcne : (classify results).2.2 ≠ [] := by
    obtain ⟨r, hr, hre⟩ := h
    have hmemf : r ∈ results.filter (fun r => r.err.isNone) :=
      List.mem_filter.mpr ⟨hr, by simp [hre]⟩
    intro hc
    have hceq : (classify results).2.2 = results.filter (fun r => r.err.isNone) := by
      rw [classify_eq_filters]
    rw [hceq] at hc
    rw [hc] at hmemf
    simp at hmemf
  rcases hbe : buildEntries (classify results).2.2 with _ | ⟨e0, rest⟩
  · exact absurd (buildEntries_eq_nil _ hbe) hcne
  · have hg : (Group results).groups =
        normGroupOf (electNorm e0 rest) ::
          ((e0 :: rest).filter (fun e => decide (e.1 ≠ (electNorm e0 rest).1))).map
            (outlierGroupOf (electNorm e0 rest).2.stdout) := by
      unfold Group
      dsimp only
      rw [hbe]
    have hmem : electNorm e0 rest ∈ e0 :: rest := electNorm_mem rest e0
    have hnd : ((e0 :: rest).map Prod.fst).Nodup := by
      rw [← hbe]
      exact buildEntries_keys_nodup _
    have hpay : ∀ p ∈ e0 :: rest, mkKey p.2.stdout p.2.stderr p.2.exitCode = p.1 := by
      rw [← hbe]
      exact buildEntries_payload _
    have hcnt : ∀ p ∈ e0 :: rest, p.2.hosts.length = classCount results p.1 := by
      rw [← hbe]
      intro p hp
      exact buildEntries_counts _ p hp
    have hkeys : keysInOrder results = e0.1 :: rest.map Prod.fst := by
      have h0 : keysInOrder results = (buildEntries (classify results).2.2).map Prod.fst := by
        unfold keysInOrder
        rw [buildEntries_keys]
        rfl
      rw [h0, hbe, List.map_cons]
    have hnormkey :
        mkKey (electNorm e0 rest).2.stdout (electNorm e0 rest).2.stderr
          (electNorm e0 rest).2.exitCode = (electNorm e0 rest).1 :=
      hpay _ hmem
    have hgk0 : groupKey (normGroupOf (electNorm e0 rest)) = (electNorm e0 rest).1 := by
      show mkKey (electNorm e0 rest).2.stdout (electNorm e0 rest).2.stderr
        (electNorm e0 rest).2.exitCode = (electNorm e0 rest).1
      exact hnormkey
    have hgke : ∀ e ∈ e0 :: rest,
        groupKey (outlierGroupOf (electNorm e0 rest).2.stdout e) = e.1 := by
      intro e hee
      show mkKey e.2.stdout e.2.stderr e.2.exitCode = e.1
      exact hpay e hee
    refine ⟨_, _, hg, rfl, ?_, ?_, ?_, ?_, ?_⟩
    · intro g hgm
      rcases List.mem_map.mp hgm with ⟨e, _, heq⟩
      rw [← heq]
      rfl
    · intro g hgm
      rcases List.mem_map.mp hgm with ⟨e, hef, heq⟩
      have hee : e ∈ e0 :: rest := List.mem_of_mem_filter hef
      rw [← heq]
      show (sortStrings e.2.hosts).length ≤ (sortStrings (electNorm e0 rest).2.hosts).length
      rw [length_sortStrings, length_sortStrings]
      exact electNorm_max rest e0 e hee
    · intro g hgm
      rcases List.mem_cons.mp hgm with h1 | h2
      · rw [h1, hgk0]
        show (sortStrings (electNorm e0 rest).2.hosts).length =
          classCount results (electNorm e0 rest).1
        rw [length_sortStrings]
        exact hcnt _ hmem
      · rcases List.mem_map.mp h2 with ⟨e, hef, heq⟩
        have hee : e ∈ e0 :: rest := List.mem_of_mem_filter hef
        rw [← heq, hgke e hee]
        show (sortStrings e.2.hosts).length = classCount results e.1
        rw [length_sortStrings]
        exact hcnt e hee
    · intro k0 ktail hks
      rw [hkeys] at hks
      have hinj := (List.cons.injEq e0.1 (rest.map Prod.fst) k0 ktail).mp hks
      have hk0 : k0 = e0.1 := hinj.1.symm
      have hkt : ktail = rest.map Prod.fst := hinj.2.symm
      subst hk0
      subst hkt
      rw [hgk0]
      exact electNorm_firstMax (classCount results) rest e0 (fun x hx => hcnt x hx)
    · have hstep1 :
          (((e0 :: rest).filter (fun e => decide (e.1 ≠ (electNorm e0 rest).1))).map
              (outlierGroupOf (electNorm e0 rest).2.stdout)).map groupKey =
            ((e0 :: rest).filter (fun e => decide (e.1 ≠ (electNorm e0 rest).1))).map
              Prod.fst := by
        rw [List.map_map]
        apply List.map_congr_left
        intro e hef
        exact hgke e (List.mem_of_mem_filter hef)
      rw [hstep1, hgk0, hkeys]
      have herase : (e0.1 :: rest.map Prod.fst).erase (electNorm e0 rest).1 =
          (e0.1 :: rest.map Prod.fst).filter (fun k => k != (electNorm e0 rest).1) := by
        rw [← List.map_cons]
        exact List.Nodup.erase_eq_filter hnd _
      rw [herase, ← List.map_cons, List.filter_map]
      congr 1
      apply List.filter_congr
      intro e _
      show decide (e.1 ≠ (electNorm e0 rest).1) = (e.1 != (electNorm e0 rest).1)
      by_cases hc : e.1 = (electNorm e0 rest).1 <;> simp [hc]

/-- Witness for the amended C1 at a single successful result. -/
theorem norm_election_witness :
    ∃ g0 gs, (Group [(⟨"a", "x", "", 0, 1, none⟩ : HostResult)]).groups = g0 :: gs ∧
      g0.isNorm = true ∧
      (∀ g ∈ gs, g.isNorm = false) ∧
      (∀ g ∈ gs, g.hosts.length ≤ g0.hosts.length) ∧
      (∀ g ∈ g0 :: gs, g.hosts.length =
        classCount [(⟨"a", "x", "", 0, 1, none⟩ : HostResult)] (groupKey g)) ∧
      (∀ k0 ktail, keysInOrder [(⟨"a", "x", "", 0, 1, none⟩ : HostResult)] = k0 :: ktail →
        groupKey g0 = firstMaxKey
          (classCount [(⟨"a", "x", "", 0, 1, none⟩ : HostResult)]) k0 ktail) ∧
      gs.map groupKey =
        (keysInOrder [(⟨"a", "x", "", 0, 1, none⟩ : HostResult)]).erase (groupKey g0) :=
  norm_election [⟨"a", "x", "", 0, 1, none⟩]
    ⟨⟨"a", "x", "", 0, 1, none⟩, List.mem_singleton_self _, rfl⟩

theorem btr_left [DecidableEq α] [Inhabited α] (a b : List α) :
    (i j : Nat) → i ≤ a.length → j ≤ b.length →
      ((backtrackRev a b i j).reverse).Sublist (a.take i)
  | 0, j, _, _ => by simp [backtrackRev]
  | i + 1, 0, _, _ => by simp [backtrackRev]
  | i + 1, j + 1, hi, hj => by
    rw [backtrackRev]
    split
    · rw [List.reverse_cons]
      have ih := btr_left a b i j (Nat.le_of_succ_le hi) (Nat.le_of_succ_le hj)
      have hlt : i < a.length := hi
      have hgd : a.getD i default = a.get ⟨i, hlt⟩ := by
        rw [List.getD_eq_getElem a default hlt]
        rfl
      have htake : a.take (i + 1) = a.take i ++ [a.get ⟨i, hlt⟩] := by
        rw [List.take_succ, List.getElem?_eq_getElem hlt]
        rfl
      rw [hgd, htake]
      exact ih.append (List.Sublist.refl _)
    · split
      · have ih := btr_left a b i (j + 1) (Nat.le_of_succ_le hi) hj
        refine ih.trans ?_
        have h1 : a.take i = (a.take (i + 1)).take i := by
          rw [List.take_take]
          congr 1
          omega
        rw [h1]
        exact List.take_sublist _ _
      · exact btr_left a b (i + 1) j hi (Nat.le_of_succ_le hj)
termination_by i j => i + j

theorem btr_right [DecidableEq α] [Inhabited α] (a b : List α) :
    (i j : Nat) → i ≤ a.length → j ≤ b.length →
      ((backtrackRev a b i j).reverse).Sublist (b.take j)
  | 0, j, _, _ => by simp [backtrackRev]
  | i + 1, 0, _, _ => by simp [backtrackRev]
  | i + 1, j + 1, hi, hj => by
    rw [backtrackRev]
    split
    · next heq =>
      rw [List.reverse_cons]
      have ih := btr_right a b i j (Nat.le_of_succ_le hi) (Nat.le_of_succ_le hj)
      have hlt : j < b.length := hj
      have hgd : b.getD j default = b.get ⟨j, hlt⟩ := by
        rw [List.getD_eq_getElem b default hlt]
        rfl
      have htake : b.take (j + 1) = b.take j ++ [b.get ⟨j, hlt⟩] := by
        rw [List.take_succ, List.getElem?_eq_getElem hlt]
        rfl
      rw [heq, hgd, htake]
      exact ih.append (List.Sublist.refl _)
    · split
      · exact btr_right a b i (j + 1) (Nat.le_of_succ_le hi) hj
      · have ih := btr_right a b (i + 1) j hi (Nat.le_of_succ_le hj)
        refine ih.trans ?_
        have h1 : b.take j = (b.take (j + 1)).take j := by
          rw [List.take_take]
          congr 1
          omega
        rw [h1]
        exact List.take_sublist _ _
termination_by i j => i + j

theorem computeLCS_sublist_left [DecidableEq α] [Inhabited α] (a b : List α) :
    (computeLCS a b).Sublist a := by
  have h := btr_left a b a.length b.length (Nat.le_refl _) (Nat.le_refl _)
  rwa [List.take_length] at h

theorem computeLCS_sublist_right [DecidableEq α] [Inhabited α] (a b : List α) :
    (computeLCS a b).Sublist b := by
  have h := btr_right a b a.length b.length (Nat.le_refl _) (Nat.le_refl _)
  rwa [List.take_length] at h

theorem applyPatch_del_append [DecidableEq α] (l : List α) :
    ∀ (ops : List (DiffTag × α)) (xs : List α),
      applyPatch ((l.map (fun x => (DiffTag.del, x))) ++ ops) (l ++ xs) =
        applyPatch ops xs := by
  induction l with
  | nil => intro ops xs; rfl
  | cons y ys ih =>
    intro ops xs
    show (if y = y then
        applyPatch (ys.map (fun x => (DiffTag.del, x)) ++ ops) (ys ++ xs) else none) =
      applyPatch ops xs
    rw [if_pos rfl]
    exact ih ops xs

theorem applyPatch_ins_append [DecidableEq α] (l : List α) :
    ∀ (ops : List (DiffTag × α)) (xs : List α),
      applyPatch ((l.map (fun x => (DiffTag.ins, x))) ++ ops) xs =
        (applyPatch ops xs).map (fun r => l ++ r) := by
  induction l with
  | nil =>
    intro ops xs
    simp only [List.map_nil, List.nil_append]
    cases applyPatch ops xs <;> simp
  | cons y ys ih =>
    intro ops xs
    show (applyPatch (ys.map (fun x => (DiffTag.ins, x)) ++ ops) xs).map (fun r => y :: r) =
      (applyPatch ops xs).map (fun r => (y :: ys) ++ r)
    rw [ih]
    cases applyPatch ops xs <;> simp

theorem dropWhile_ne_of_mem [DecidableEq α] (c : α) :
    ∀ l : List α, c ∈ l →
      ∃ l2, l.dropWhile (fun x => decide (x ≠ c)) = c :: l2 := by
  intro l
  induction l with
  | nil => intro h; simp at h
  | cons x xs ih =>
    intro h
    by_cases hx : x = c
    · subst hx
      exact ⟨xs, by simp [List.dropWhile_cons]⟩
    · have hcx : c ∈ xs := by
        rcases List.mem_cons.mp h with h1 | h2
        · exact absurd h1.symm hx
        · exact h2
      rw [List.dropWhile_cons, if_pos (by simp [hx])]
      exact ih hcx

theorem cons_sublist_dissect [DecidableEq α] (c : α) (lcs : List α) :
    ∀ (pre l : List α), (∀ x ∈ pre, x ≠ c) →
      (c :: lcs).Sublist (pre ++ c :: l) → lcs.Sublist l := by
  intro pre
  induction pre with
  | nil =>
    intro l _ h
    exact List.cons_sublist_cons.mp h
  | cons d pre ih =>
    intro l hpre h
    rw [List.cons_append] at h
    cases h with
    | cons _ h2 => exact ih l (fun x hx => hpre x (List.mem_cons_of_mem _ hx)) h2
    | cons₂ _ h2 =>
      exact absurd rfl (hpre _ (List.mem_cons_self _ _))

theorem applyPatch_walkDiff [DecidableEq α] :
    ∀ (lcs a b : List α), lcs.Sublist a → lcs.Sublist b →
      applyPatch (walkDiff lcs a b) a = some b := by
  intro lcs
  induction lcs with
  | nil =>
    intro a b _ _
    show applyPatch
      (a.map (fun x => (DiffTag.del, x)) ++ b.map (fun x => (DiffTag.ins, x))) a = some b
    have h1 := applyPatch_del_append a (b.map (fun x => (DiffTag.ins, x))) []
    rw [List.append_nil] at h1
    rw [h1]
    have h2 := applyPatch_ins_append b ([] : List (DiffTag × α)) []
    rw [List.append_nil] at h2
    rw [h2]
    simp [applyPatch]
  | cons c lcs ih =>
    intro a b hca hcb
    have hma : c ∈ a := hca.subset (List.mem_cons_self _ _)
    have hmb : c ∈ b := hcb.subset (List.mem_cons_self _ _)
    obtain ⟨ra, hra⟩ := dropWhile_ne_of_mem c a hma
    obtain ⟨rb, hrb⟩ := dropWhile_ne_of_mem c b hmb
    have hasplit : a.takeWhile (fun x => decide (x ≠ c)) ++ (c :: ra) = a := by
      rw [← hra, List.takeWhile_append_dropWhile]
    have hbsplit : b.takeWhile (fun x => decide (x ≠ c)) ++ (c :: rb) = b := by
      rw [← hrb, List.takeWhile_append_dropWhile]
    have hpa : ∀ x ∈ a.takeWhile (fun x => decide (x ≠ c)), x ≠ c := by
      intro x hx
      have := List.mem_takeWhile_imp hx
      simpa using this
    have hpb : ∀ x ∈ b.takeWhile (fun x => decide (x ≠ c)), x ≠ c := by
      intro x hx
      have := List.mem_takeWhile_imp hx
      simpa using this
    have hlcsa : lcs.Sublist ra :=
      cons_sublist_dissect c lcs _ ra hpa (by rw [hasplit]; exact hca)
    have hlcsb : lcs.Sublist rb :=
      cons_sublist_dissect c lcs _ rb hpb (by rw [hbsplit]; exact hcb)
    have hwalk : walkDiff (c :: lcs) a b =
        (a.takeWhile (fun x => decide (x ≠ c))).map (fun x => (DiffTag.del, x)) ++
          ((b.takeWhile (fun x => decide (x ≠ c))).map (fun x => (DiffTag.ins, x)) ++
            (DiffTag.keep, c) :: walkDiff lcs ra rb) := by
      show (let pa := a.span (fun x => decide (x ≠ c))
            let pb := b.span (fun x => decide (x ≠ c))
            pa.1.map (fun x => (DiffTag.del, x)) ++ pb.1.map (fun x => (DiffTag.ins, x)) ++
              (DiffTag.keep, c) :: walkDiff lcs (pa.2.drop 1) (pb.2.drop 1)) = _
      rw [List.span_eq_take_drop, List.span_eq_take_drop]
      dsimp only
      rw [hra, hrb]
      simp only [List.drop_succ_cons, List.drop_zero, List.append_assoc]
    calc applyPatch (walkDiff (c :: lcs) a b) a
        = applyPatch (walkDiff (c :: lcs) a b)
            (a.takeWhile (fun x => decide (x ≠ c)) ++ (c :: ra)) := by rw [hasplit]
      _ = some b := by
        rw [hwalk, applyPatch_del_append, applyPatch_ins_append]
        have hkeep : applyPatch ((DiffTag.keep, c) :: walkDiff lcs ra rb) (c :: ra) =
            some (c :: rb) := by
          show (if c = c then
              (applyPatch (walkDiff lcs ra rb) ra).map (fun r => c :: r) else none) =
            some (c :: rb)
          rw [if_pos rfl, ih ra rb hlcsa hlcsb]
          rfl
        rw [hkeep]
        show some (b.takeWhile (fun x => decide (x ≠ c)) ++ (c :: rb)) = some b
        rw [hbsplit]

/-- C5: for stdout strings of at most 500 lines on each side (the
non-fallback case), the emitted unified diff is the rendered tagged
body, and replaying that body against the norm's lines — matching and
dropping each deletion, matching and copying each context line,
inserting each addition — reproduces the outlier's lines exactly. -/
theorem diff_roundtrip (a b : String)
    (ha : (splitLines a).length ≤ 500) (hb : (splitLines b).length ≤ 500) :
    unifiedDiff a b = "--- norm\n+++ outlier\n" ++
      String.join ((diffOps (splitLines a) (splitLines b)).map renderOp) ∧
    applyPatch (diffOps (splitLines a) (splitLines b)) (splitLines a) =
      some (splitLines b) := by
  refine ⟨rfl, ?_⟩
  unfold diffOps
  rw [if_neg (by simp [maxDiffLines]; omega)]
  exact applyPatch_walkDiff _ _ _ (computeLCS_sublist_left _ _) (computeLCS_sublist_right _ _)

/-- Witness for C5 on a two-line norm and outlier differing in the
second line. -/
theorem diff_roundtrip_witness :
    applyPatch (diffOps (splitLines "x\ny\n") (splitLines "x\nz\n")) (splitLines "x\ny\n") =
      some (splitLines "x\nz\n") :=
  (diff_roundtrip "x\ny\n" "x\nz\n" (by decide) (by decide)).2

theorem lookup_mem_sf :
    ∀ (l : List (Nat × SfOutcome)) (k : Nat) (v : SfOutcome),
      l.lookup k = some v → (k, v) ∈ l := by
  intro l
  induction l with
  | nil => intro k v h; simp [List.lookup] at h
  | cons x rest ih =>
    intro k v h
    rcases x with ⟨k1, v1⟩
    rw [List.lookup] at h
    cases hbe : k == k1 with
    | true =>
      rw [hbe] at h
      simp only [Option.some.injEq] at h
      have hk : k = k1 := by simpa using hbe
      rw [hk, h]
      exact List.mem_cons_self _ _
    | false =>
      rw [hbe] at h
      exact List.mem_cons_of_mem _ (ih k v h)

theorem set_getElem?_cases (l : List SfPc) (tid : Nat) (x : SfPc) (i : Nat) (pc : SfPc)
    (h : (l.set tid x)[i]? = some pc) :
    (i = tid ∧ pc = x) ∨ (i ≠ tid ∧ l[i]? = some pc) := by
  rw [List.getElem?_set] at h
  by_cases hi : tid = i
  · rw [if_pos hi] at h
    by_cases hlt : tid < l.length
    · rw [if_pos hlt] at h
      exact Or.inl ⟨hi.symm, (Option.some.injEq _ _ ▸ h).symm⟩
    · rw [if_neg hlt] at h
      simp at h
  · rw [if_neg hi] at h
    exact Or.inr ⟨fun hc => hi hc.symm, h⟩

theorem sfInv_init (n : Nat) : SfInv (sfInit n) := by
  refine ⟨by simp [sfInit], ?_, ?_, ?_, ?_, ?_, ?_, ?_⟩
  · intro t o hm
    simp [sfInit] at hm
  · intro c hc
    simp [sfInit] at hc
  · intro t ht
    simp [sfInit] at ht
  · intro _
    exact ⟨rfl, rfl, rfl⟩
  · intro i pc hi
    simp only [sfInit, List.getElem?_replicate] at hi
    split at hi
    · rw [← Option.some.injEq _ _ |>.mp hi]
      trivial
    · simp at hi
  · intro i j p q hip hjq hap haq
    simp only [sfInit, List.getElem?_replicate] at hip
    split at hip
    · rw [← Option.some.injEq _ _ |>.mp hip] at hap
      simp [sfActive] at hap
    · simp at hip
  · intro _ i p hip
    simp only [sfInit, List.getElem?_replicate] at hip
    split at hip
    · rw [← Option.some.injEq _ _ |>.mp hip]
      rfl
    · simp at hip

theorem sfInv_step (sc : Nat → Bool) (hsc : ∀ k, sc k = true) (st : SfState) (tid : Nat)
    (hinv : SfInv st) : SfInv (sfStep sc st tid) := by
  obtain ⟨h1, h2, h3, h4, h5, h6, h7, h8⟩ := hinv
  cases hpc : st.threads[tid]? with
  | none =>
    have hstep : sfStep sc st tid = st := by
      unfold sfStep
      rw [hpc]
    rw [hstep]
    exact ⟨h1, h2, h3, h4, h5, h6, h7, h8⟩
  | some pc =>
    cases pc with
    | invoked =>
      cases hc : st.cache with
      | some c =>
        have hstep : sfStep sc st tid =
            { st with threads := st.threads.set tid (SfPc.done (SfOutcome.ok c)) } := by
          unfold sfStep
          rw [hpc, hc]
        rw [hstep]
        obtain ⟨hc0, hd1⟩ := h3 c hc
        subst hc0
        refine ⟨h1, h2, h3, h4, h5, ?_, ?_, ?_⟩
        · intro i pc2 hi
          rcases set_getElem?_cases _ _ _ _ _ hi with ⟨_, rfl⟩ | ⟨_, horig⟩
          · exact rfl
          · exact h6 i pc2 horig
        · intro i j p q hip hjq hap haq
          rcases set_getElem?_cases _ _ _ _ _ hip with ⟨hi, rfl⟩ | ⟨hi, hio⟩
          · simp [sfActive] at hap
          · rcases set_getElem?_cases _ _ _ _ _ hjq with ⟨hj, rfl⟩ | ⟨hj, hjo⟩
            · simp [sfActive] at haq
            · exact h7 i j p q hio hjo hap haq
        · intro hif i p hip
          rcases set_getElem?_cases _ _ _ _ _ hip with ⟨hi, rfl⟩ | ⟨hi, hio⟩
          · rfl
          · exact h8 hif i p hio
      | none =>
        cases hif : st.inflight with
        | some t =>
          have hstep : sfStep sc st tid =
              { st with threads := st.threads.set tid (SfPc.waiting t) } := by
            unfold sfStep
            rw [hpc, hc, hif]
          rw [hstep]
          have ht0 : t = 0 := h4 t hif
          subst ht0
          refine ⟨h1, h2, h3, h4, h5, ?_, ?_, ?_⟩
          · intro i pc2 hi
            rcases set_getElem?_cases _ _ _ _ _ hi with ⟨_, rfl⟩ | ⟨_, horig⟩
            · exact rfl
            · exact h6 i pc2 horig
          · intro i j p q hip hjq hap haq
            rcases set_getElem?_cases _ _ _ _ _ hip with ⟨hi, rfl⟩ | ⟨hi, hio⟩
            · simp [sfActive] at hap
            · rcases set_getElem?_cases _ _ _ _ _ hjq with ⟨hj, rfl⟩ | ⟨hj, hjo⟩
              · simp [sfActive] at haq
              · exact h7 i j p q hio hjo hap haq
          · intro hifn i p hip
            rw [hif] at hifn
            exact absurd hifn (by simp)
        | none =>
          have hstep : sfStep sc st tid =
              { st with inflight := some st.nextTicket, nextTicket := st.nextTicket + 1,
                        threads := st.threads.set tid (SfPc.dialing st.nextTicket) } := by
            unfold sfStep
            rw [hpc, hc, hif]
          rw [hstep]
          obtain ⟨hd0, hpub0, hnt0⟩ := h5 ⟨hc, hif⟩
          refine ⟨h1, h2, h3, ?_, ?_, ?_, ?_, ?_⟩
          · intro t2 ht2
            simp only [Option.some.injEq] at ht2
            rw [← ht2, hnt0]
          · intro hcontra
            exact absurd hcontra.2 (by simp)
          · intro i pc2 hi
            rcases set_getElem?_cases _ _ _ _ _ hi with ⟨_, rfl⟩ | ⟨hi2, horig⟩
            · exact ⟨hnt0, by rw [hnt0], hd0, hpub0, hc⟩
            · have horg := h6 i pc2 horig
              cases pc2 with
              | invoked => trivial
              | waiting t2 => exact horg
              | dialing t2 =>
                exact absurd (h8 hif i _ horig) (by simp [sfActive])
              | publishing t2 o2 =>
                exact absurd (h8 hif i _ horig) (by simp [sfActive])
              | done o2 => exact horg
          · intro i j p q hip hjq hap haq
            rcases set_getElem?_cases _ _ _ _ _ hip with ⟨hi, rfl⟩ | ⟨hi, hio⟩
            · rcases set_getElem?_cases _ _ _ _ _ hjq with ⟨hj, rfl⟩ | ⟨hj, hjo⟩
              · rw [hi, hj]
              · exact absurd (h8 hif j q hjo) (by rw [haq]; simp)
            · exact absurd (h8 hif i p hio) (by rw [hap]; simp)
          · intro hifn
            exact absurd hifn (by simp)
    | waiting t =>
      cases hlk : st.published.lookup t with
      | none =>
        have hstep : sfStep sc st tid = st := by
          unfold sfStep
          rw [hpc]
          dsimp only
          rw [hlk]
        rw [hstep]
        exact ⟨h1, h2, h3, h4, h5, h6, h7, h8⟩
      | some out =>
        have hstep : sfStep sc st tid =
            { st with threads := st.threads.set tid (SfPc.done out) } := by
          unfold sfStep
          rw [hpc]
          dsimp only
          rw [hlk]
        rw [hstep]
        obtain ⟨_, hok, _⟩ := h2 t out (lookup_mem_sf _ _ _ hlk)
        refine ⟨h1, h2, h3, h4, h5, ?_, ?_, ?_⟩
        · intro i pc2 hi
          rcases set_getElem?_cases _ _ _ _ _ hi with ⟨_, rfl⟩ | ⟨_, horig⟩
          · exact hok
          · exact h6 i pc2 horig
        · intro i j p q hip hjq hap haq
          rcases set_getElem?_cases _ _ _ _ _ hip with ⟨hi, rfl⟩ | ⟨hi, hio⟩
          · simp [sfActive] at hap
          · rcases set_getElem?_cases _ _ _ _ _ hjq with ⟨hj, rfl⟩ | ⟨hj, hjo⟩
            · simp [sfActive] at haq
            · exact h7 i j p q hio hjo hap haq
        · intro hif i p hip
          rcases set_getElem?_cases _ _ _ _ _ hip with ⟨hi, rfl⟩ | ⟨hi, hio⟩
          · rfl
          · exact h8 hif i p hio
    | dialing t =>
      obtain ⟨ht0, hif0, hd0, hpub0, hc0⟩ := h6 tid (SfPc.dialing t) hpc
      have hstep : sfStep sc st tid =
          { st with dials := st.dials + 1,
                    threads := st.threads.set tid
                      (SfPc.publishing t (SfOutcome.ok st.dials)) } := by
        unfold sfStep
        rw [hpc]
        simp [hsc]
      rw [hstep]
      refine ⟨by show st.dials + 1 ≤ 1; omega, ?_, ?_, h4, ?_, ?_, ?_, ?_⟩
      · intro t2 o2 hm
        rw [hpub0] at hm
        simp at hm
      · intro c hcc
        rw [hc0] at hcc
        exact absurd hcc (by simp)
      · intro hcontra
        rw [hif0] at hcontra
        exact absurd hcontra.2 (by simp)
      · intro i pc2 hi
        rcases set_getElem?_cases _ _ _ _ _ hi with ⟨_, rfl⟩ | ⟨hi2, horig⟩
        · exact ⟨ht0, hif0, by rw [hd0], by rw [hd0], hpub0, hc0⟩
        · have horg := h6 i pc2 horig
          cases pc2 with
          | invoked => trivial
          | waiting t2 => exact horg
          | dialing t2 =>
            exact absurd (h7 i tid _ _ horig hpc rfl rfl) hi2
          | publishing t2 o2 =>
            exact absurd (h7 i tid _ _ horig hpc rfl rfl) hi2
          | done o2 => exact horg
      · intro i j p q hip hjq hap haq
        rcases set_getElem?_cases _ _ _ _ _ hip with ⟨hi, rfl⟩ | ⟨hi, hio⟩
        · rcases set_getElem?_cases _ _ _ _ _ hjq with ⟨hj, rfl⟩ | ⟨hj, hjo⟩
          · rw [hi, hj]
          · exact absurd (h7 j tid q _ hjo hpc haq rfl) hj
        · exact absurd (h7 i tid p _ hio hpc hap rfl) hi
      · intro hifn
        rw [hif0] at hifn
        exact absurd hifn (by simp)
    | publishing t out =>
      obtain ⟨ht0, hif0, hok, hd1, hpub0, hc0⟩ := h6 tid (SfPc.publishing t out) hpc
      subst ht0
      subst hok
      have hstep : sfStep sc st tid =
          { st with inflight := none, cache := some 0,
                    published := (0, SfOutcome.ok 0) :: st.published,
                    threads := st.threads.set tid (SfPc.done (SfOutcome.ok 0)) } := by
        unfold sfStep
        rw [hpc]
      rw [hstep]
      refine ⟨h1, ?_, ?_, ?_, ?_, ?_, ?_, ?_⟩
      · intro t2 o2 hm
        rw [hpub0] at hm
        simp only [List.mem_singleton, Prod.mk.injEq] at hm
        exact ⟨hm.1, hm.2, hd1⟩
      · intro c hcc
        simp only [Option.some.injEq] at hcc
        exact ⟨hcc.symm, hd1⟩
      · intro t2 ht2
        exact absurd ht2 (by simp)
      · intro hcontra
        exact absurd hcontra.1 (by simp)
      · intro i pc2 hi
        rcases set_getElem?_cases _ _ _ _ _ hi with ⟨_, rfl⟩ | ⟨hi2, horig⟩
        · exact rfl
        · have horg := h6 i pc2 horig
          cases pc2 with
          | invoked => trivial
          | waiting t2 => exact horg
          | dialing t2 =>
            exact absurd (h7 i tid _ _ horig hpc rfl rfl) hi2
          | publishing t2 o2 =>
            exact absurd (h7 i tid _ _ horig hpc rfl rfl) hi2
          | done o2 => exact horg
      · intro i j p q hip hjq hap haq
        rcases set_getElem?_cases _ _ _ _ _ hip with ⟨hi, rfl⟩ | ⟨hi, hio⟩
        · simp [sfActive] at hap
        · exact absurd (h7 i tid p _ hio hpc hap rfl) hi
      · intro _ i p hip
        rcases set_getElem?_cases _ _ _ _ _ hip with ⟨hi, rfl⟩ | ⟨hi, hio⟩
        · rfl
        · cases hap : sfActive p with
          | false => rfl
          | true => exact absurd (h7 i tid p _ hio hpc hap rfl) hi
    | done o =>
      have hstep : sfStep sc st tid = st := by
        unfold sfStep
        rw [hpc]
      rw [hstep]
      exact ⟨h1, h2, h3, h4, h5, h6, h7, h8⟩

theorem sfInv_run (sc : Nat → Bool) (hsc : ∀ k, sc k = true) (n : Nat) (sched : List Nat) :
    SfInv (sfRun sc n sched) := by
  have general : ∀ (l : List Nat) (st : SfState), SfInv st → SfInv (l.foldl (sfStep sc) st) := by
    intro l
    induction l with
    | nil => intro st h; exact h
    | cons x xs ih =>
      intro st h
      rw [List.foldl_cons]
      exact ih _ (sfInv_step sc hsc st x h)
  exact general sched (sfInit n) (sfInv_init n)

/-- C9 counterexample: two callers of getOrDial for the same label,
both invoked at time zero (overlapping windows), with every dial
failing.  The schedule lets the first caller claim the slot, dial,
fail, and clean up before the second caller takes its first lock; the
second caller then finds neither a cached client nor an in-flight
ticket and dials again: two transport opens, and the callers receive
the errors of two different dials. -/
theorem single_flight_claim_counterexample :
    (sfRun (fun _ => false) 2 [0, 0, 0, 1, 1, 1]).dials = 2 ∧
    (sfRun (fun _ => false) 2 [0, 0, 0, 1, 1, 1]).threads =
      [SfPc.done (SfOutcome.fail 0), SfPc.done (SfOutcome.fail 1)] := by
  decide

/-- C9 amended: when the dial succeeds the claim holds — under an
always-succeeding dial script, every schedule of every number of
callers opens the transport at most once, and every caller that
returns receives the client of that single dial.  (After a FAILED dial
the single-flight ticket is discarded before late callers observe it,
so overlapping callers can trigger a second open; the at-most-once and
same-error guarantees hold only for waiters of the same ticket, not
for all overlapping callers.) -/
theorem single_flight_success (sc : Nat → Bool) (hsc : ∀ k, sc k = true)
    (n : Nat) (sched : List Nat) :
    (sfRun sc n sched).dials ≤ 1 ∧
    ∀ (i : Nat) (o : SfOutcome),
      (sfRun sc n sched).threads[i]? = some (SfPc.done o) → o = SfOutcome.ok 0 := by
  obtain ⟨h1, _, _, _, _, h6, _, _⟩ := sfInv_run sc hsc n sched
  refine ⟨h1, ?_⟩
  intro i o hio
  exact h6 i (SfPc.done o) hio

/-- Witness for the amended C9: two callers, one served from the
single dial. -/
theorem single_flight_success_witness :
    (sfRun (fun _ => true) 2 [0, 0, 0, 1]).dials ≤ 1 ∧
    SfOutcome.ok 0 = SfOutcome.ok 0 := by
  have h := single_flight_success (fun _ => true) (fun _ => rfl) 2 [0, 0, 0, 1]
  exact ⟨h.1, h.2 0 (SfOutcome.ok 0) (by decide)⟩

end Herd
